import Mathlib

/-!
# tcpp2: particle propagation and weighted (circular) mean

A shallow embedding of `HeadBodyParticleGenerator`
(`src/vision/particle_filter/head_body_particle/head_body_particle_generator.hpp`),
of the adapter `StlMap1d` (`src/numarray1d/stl_map1d.hpp`) and of the two-dimensional
conversions `Convert` (`src/core/convert/eigen_stl_convert.hpp`).

The embedding is written over a linearly ordered field `K` that stands for the finite
values of the C++ type `double`, and over the functions of `<cmath>` on `K`
(`CMath K`): it runs as it is on the rationals.  Three instances are used.

* `cmath` on `K = ℝ`: exact arithmetic, the exact number π for `M_PI` and the real
  cosine, sine and two-argument arctangent.  It is an idealisation: nothing is rounded
  and nothing overflows, and the only non-finite result (`none` of `Dbl K`) is the
  quotient `1.0 / sum_weight` by a sum that is exactly zero.
* `cmath64` on `K = ℝ`: as `cmath`, but with `M_PI` the binary64 number it is in the
  source, which lies just below π, and with the arctangent confined to the values
  `[-M_PI, M_PI]` it can return.  It shows what the rounded constant does to the
  circular dimensions: the eight directions do not cancel exactly, 8 is not a period,
  and the direction -4 is returned as -4.
* `binary64`: the arithmetic of binary64 itself (round to nearest, ties to even, with
  subnormal numbers, overflow to an infinity, and NaN; the sign of a zero is left out),
  for the linear fields, which use no function of `<cmath>`.  Every operation is
  rounded by itself: the product and the sum of `sum += value * weight` are not fused.
-/

namespace tcpp

/-- The value of a `double` slot: `some r` is the finite value `r`, `none` is a
non-finite value (an infinity or a NaN). -/
abbrev Dbl (K : Type) := Option K

/-- The functions and the constant of `<cmath>` that the sources use. -/
structure CMath (K : Type) where
  M_PI : K
  cos : K → K
  sin : K → K
  atan2 : K → K → K

/-- The type `std::complex<double>`. -/
structure complex (K : Type) where
  real : K
  imag : K

namespace complex

variable {K : Type}

/-- The operator `+=` of `std::complex`. -/
def add [Add K] (z w : complex K) : complex K := ⟨z.real + w.real, z.imag + w.imag⟩

/-- The function `std::norm`: the squared magnitude. -/
def norm [Add K] [Mul K] (z : complex K) : K := z.real * z.real + z.imag * z.imag

/-- The function `std::arg`: the phase angle `atan2( imag, real )`. -/
def arg (m : CMath K) (z : complex K) : K := m.atan2 z.imag z.real

end complex

/-- Modelled from the spec: `head_body_particle.hpp` is not part of the sources at
hand.  A particle has five independent scalar fields `x`, `y`, `s`, `dh`, `db`,
stored as real numbers; `F` is the type of the values a field holds. -/
structure HeadBodyParticle (F : Type) where
  x : F
  y : F
  s : F
  dh : F
  db : F

namespace HeadBodyParticle

variable {F : Type}

/-- The setter `set_x<double>( v )`: convert to the native type, then store. -/
def set_x (p : HeadBodyParticle F) (v : F) : HeadBodyParticle F := { p with x := v }

/-- The setter `set_y<double>( v )`. -/
def set_y (p : HeadBodyParticle F) (v : F) : HeadBodyParticle F := { p with y := v }

/-- The setter `set_s<double>( v )`. -/
def set_s (p : HeadBodyParticle F) (v : F) : HeadBodyParticle F := { p with s := v }

/-- The setter `set_dh<double>( v )`. -/
def set_dh (p : HeadBodyParticle F) (v : F) : HeadBodyParticle F := { p with dh := v }

/-- The setter `set_db<double>( v )`. -/
def set_db (p : HeadBodyParticle F) (v : F) : HeadBodyParticle F := { p with db := v }

end HeadBodyParticle

/-- The error a constructor raises on an invalid configuration. -/
inductive ConfigurationError
  | negative_sigma
  deriving DecidableEq

/-- Modelled from the spec: `tcpp2/core/rand_num_maker.hpp` is not part of the
sources at hand.  A `RandNumMaker<boost::normal_distribution<> >` is configured once
with a mean and a standard deviation and owns the state of its engine: `engine k`
is the `k`-th standard normal variate the engine yields after its last seeding,
`drawn` counts the variates consumed since then. -/
structure RandNumMaker (K : Type) where
  mean : K
  sigma : K
  engine : ℕ → K
  drawn : ℕ

/-- What a generator takes from its surroundings when it is constructed: the stream
of an engine that was never seeded, the stream `variates seed` of an engine seeded
with `seed`, and the integers `seeder k` that the uniform seeder, itself seeded from
`time(0)`, yields at its call number `k`. -/
structure Entropy (K : Type) where
  unseeded : ℕ → K
  variates : ℤ → ℕ → K
  seeder : ℕ → ℤ

namespace RandNumMaker

variable {K : Type} [LinearOrderedField K]

/-- Modelled from the spec: the constructor `RandNumMaker( mean, sigma )`; a negative
standard deviation is a configuration error, rejected at construction. -/
def create (e : Entropy K) (mean sigma : K) : Except ConfigurationError (RandNumMaker K) :=
  if sigma < 0 then .error .negative_sigma
  else .ok { mean := mean, sigma := sigma, engine := e.unseeded, drawn := 0 }

/-- Modelled from the spec: `Seed( seed )` restarts the engine on the stream of
variates that belongs to the seed. -/
def Seed (e : Entropy K) (r : RandNumMaker K) (seed : ℤ) : RandNumMaker K :=
  { r with engine := e.variates seed, drawn := 0 }

/-- Modelled from the spec: the zero-argument draw `operator()`: one sample of the
normal distribution with the configured mean and standard deviation, and the
sampler after the draw. -/
def draw (r : RandNumMaker K) : K × RandNumMaker K :=
  (r.mean + r.sigma * r.engine r.drawn, { r with drawn := r.drawn + 1 })

end RandNumMaker

namespace vision

/-- The data members of `HeadBodyParticleGenerator`: one sampler per dimension. -/
structure HeadBodyParticleGenerator (K : Type) where
  rand_x_ : RandNumMaker K
  rand_y_ : RandNumMaker K
  rand_s_ : RandNumMaker K
  rand_dh_ : RandNumMaker K
  rand_db_ : RandNumMaker K

namespace HeadBodyParticleGenerator

variable {K : Type} [LinearOrderedField K]

/-- The constructor `HeadBodyParticleGenerator( sigma_x, ..., sigma_db )`: the five
samplers are constructed with mean 0 in the order of their declaration (an exception
of a member constructor leaves the constructor), then seeded one after the other
from the seeder. -/
def construct (e : Entropy K) (sigma_x sigma_y sigma_s sigma_dh sigma_db : K) :
    Except ConfigurationError (HeadBodyParticleGenerator K) :=
  match RandNumMaker.create e 0 sigma_x with
  | .error err => .error err
  | .ok rand_x_ =>
  match RandNumMaker.create e 0 sigma_y with
  | .error err => .error err
  | .ok rand_y_ =>
  match RandNumMaker.create e 0 sigma_s with
  | .error err => .error err
  | .ok rand_s_ =>
  match RandNumMaker.create e 0 sigma_dh with
  | .error err => .error err
  | .ok rand_dh_ =>
  match RandNumMaker.create e 0 sigma_db with
  | .error err => .error err
  | .ok rand_db_ =>
    .ok { rand_x_ := RandNumMaker.Seed e rand_x_ (e.seeder 0)
          rand_y_ := RandNumMaker.Seed e rand_y_ (e.seeder 1)
          rand_s_ := RandNumMaker.Seed e rand_s_ (e.seeder 2)
          rand_dh_ := RandNumMaker.Seed e rand_dh_ (e.seeder 3)
          rand_db_ := RandNumMaker.Seed e rand_db_ (e.seeder 4) }

/-- The method `Generate( src_hb_particle, dst_hb_particle )`: the destination particle
and the generator after the call. -/
def Generate (g : HeadBodyParticleGenerator K) (src_hb_particle dst_hb_particle : HeadBodyParticle K) :
    HeadBodyParticle K × HeadBodyParticleGenerator K :=
  let dx := g.rand_x_.draw
  let dst1 := dst_hb_particle.set_x (src_hb_particle.x + dx.1)
  let dy := g.rand_y_.draw
  let dst2 := dst1.set_y (src_hb_particle.y + dy.1)
  let ds := g.rand_s_.draw
  let dst3 := dst2.set_s (src_hb_particle.s + ds.1)
  let ddh := g.rand_dh_.draw
  let dst4 := dst3.set_dh (src_hb_particle.dh + ddh.1)
  let ddb := g.rand_db_.draw
  let dst5 := dst4.set_db (src_hb_particle.db + ddb.1)
  (dst5, { rand_x_ := dx.2, rand_y_ := dy.2, rand_s_ := ds.2, rand_dh_ := ddh.2, rand_db_ := ddb.2 })

/-- What leaves `GetWeightedMean` other than by its return: the failed `assert`, or a
`std::runtime_error` with its message. -/
inductive Raised
  | assertion_failure
  | runtime_error (what : String)
  deriving DecidableEq

/-- The local variables of `GetWeightedMean` that the loop updates. -/
structure Sums (K : Type) where
  sum_x : K
  sum_y : K
  sum_s : K
  sum_weight : K
  vec_dh : complex K
  vec_db : complex K

/-- The locals as initialised before the loop. -/
def Sums.init : Sums K :=
  { sum_x := 0.0, sum_y := 0.0, sum_s := 0.0, sum_weight := 0.0, vec_dh := ⟨0, 0⟩, vec_db := ⟨0, 0⟩ }

/-- One pass through the body of the loop, for `particles[i]` and `weights[i]`. -/
def Sums.step (m : CMath K) (a : Sums K) (pw : HeadBodyParticle K × K) : Sums K :=
  let dh_phase := pw.1.dh * 2 * m.M_PI / 8.0
  let db_phase := pw.1.db * 2 * m.M_PI / 8.0
  { sum_x := a.sum_x + pw.1.x * pw.2
    sum_y := a.sum_y + pw.1.y * pw.2
    sum_s := a.sum_s + pw.1.s * pw.2
    vec_dh := a.vec_dh.add ⟨pw.2 * m.cos dh_phase, pw.2 * m.sin dh_phase⟩
    vec_db := a.vec_db.add ⟨pw.2 * m.cos db_phase, pw.2 * m.sin db_phase⟩
    sum_weight := a.sum_weight + pw.2 }

/-- The loop `for( int i = 0; i < n; ++i )` over two sequences of the same size `n`. -/
def accumulate (m : CMath K) (particles : List (HeadBodyParticle K)) (weights : List K) : Sums K :=
  (particles.zip weights).foldl (Sums.step m) Sums.init

/-- The division `1.0 / sum_weight` of doubles in exact arithmetic: an infinity when the
divisor is zero.  (In binary64 the quotient also overflows for a divisor of magnitude
below `2^-1024`, and is rounded: see `binary64.div`.) -/
def denominator (sum_weight : K) : Dbl K :=
  if sum_weight = 0 then none else some (1.0 / sum_weight)

/-- The product `sum * denominator` of doubles in exact arithmetic: not finite when
`denominator` is not (an infinity, or a NaN when `sum` is zero).  (In binary64 the
product is rounded a second time: see `binary64.linearField`.) -/
def scale (sum : K) (denominator : Dbl K) : Dbl K :=
  denominator.map (fun d => sum * d)

/-- The method `GetWeightedMean( particles, weights, mean_particle )`: how the call
ends (`.ok ()` when it returns) and what `mean_particle` holds then.  The `assert` is
taken as compiled in; the three linear fields are set before the guards are tested. -/
def GetWeightedMean (m : CMath K) (particles : List (HeadBodyParticle K)) (weights : List K)
    (mean_particle : HeadBodyParticle (Dbl K)) : Except Raised Unit × HeadBodyParticle (Dbl K) :=
  if particles.length ≠ weights.length then (.error .assertion_failure, mean_particle)
  else
    let a := accumulate m particles weights
    let denominator := denominator a.sum_weight
    let m1 := mean_particle.set_x (scale a.sum_x denominator)
    let m2 := m1.set_y (scale a.sum_y denominator)
    let m3 := m2.set_s (scale a.sum_s denominator)
    if a.vec_dh.norm ≤ 1e-10 then
      (.error (.runtime_error "Failed to calculate head direction average."), m3)
    else if a.vec_db.norm ≤ 1e-10 then
      (.error (.runtime_error "Failed to calculate body direction average."), m3)
    else
      let m4 := m3.set_dh (some (a.vec_dh.arg m * 8.0 / 2.0 / m.M_PI))
      let m5 := m4.set_db (some (a.vec_db.arg m * 8.0 / 2.0 / m.M_PI))
      (.ok (), m5)

end HeadBodyParticleGenerator

end vision

/-! ## The instance on exact reals -/

/-- The two-argument arctangent of `<cmath>` on exact reals: the angle in `(-π, π]` of
the point `(x, y)`, and `0` at the origin. -/
noncomputable def atan2 (y x : ℝ) : ℝ :=
  if 0 < x then Real.arctan (y / x)
  else if x < 0 then (if 0 ≤ y then Real.arctan (y / x) + Real.pi else Real.arctan (y / x) - Real.pi)
  else if 0 < y then Real.pi / 2
  else if y < 0 then -(Real.pi / 2)
  else 0

/-- The functions of `<cmath>` on exact reals, with the exact number π for `M_PI`: an
idealisation of the library, which rounds (see `cmath64` for the rounded constant). -/
noncomputable def cmath : CMath ℝ :=
  { M_PI := Real.pi, cos := Real.cos, sin := Real.sin, atan2 := atan2 }

/-! ## The instance with the constant `M_PI` of the source -/

/-- The constant `M_PI` as a `double`: the binary64 number nearest to π,
`0x1.921fb54442d18p+1 = 884279719003555 / 2^48 = 3.141592653589793115997963...`;
it is smaller than π by about `1.22e-16`. -/
def M_PI_binary64 : ℚ := 884279719003555 / 2 ^ 48

/-- The two-argument arctangent as a `double` can return it: the exact angle, confined
to `[-M_PI, M_PI]` (an angle between `M_PI` and π is rounded to `M_PI`). -/
noncomputable def atan2_binary64 (y x : ℝ) : ℝ :=
  max (-(M_PI_binary64 : ℝ)) (min (M_PI_binary64 : ℝ) (atan2 y x))

/-- The functions of `<cmath>` with `M_PI` as it is in the source; cosine and sine are
the exact functions, and the phase `dh * 2 * M_PI / 8.0` is not rounded. -/
noncomputable def cmath64 : CMath ℝ :=
  { M_PI := (M_PI_binary64 : ℝ), cos := Real.cos, sin := Real.sin, atan2 := atan2_binary64 }

/-! ## The arithmetic of binary64, for the linear fields -/

namespace binary64

/-- A value of the type `double`: a finite number, an infinity with its sign, or a NaN.
The sign of a zero is not kept. -/
inductive Value
  | finite (q : ℚ)
  | infinite (negative : Bool)
  | nan
  deriving DecidableEq

/-- The number of binary digits of a natural number `n`, counted in at most `fuel`
steps (as many as `n` itself are always enough). -/
def bitLength : ℕ → ℕ → ℕ
  | 0, _ => 0
  | fuel + 1, n => if n = 0 then 0 else bitLength fuel (n / 2) + 1

/-- The exponent `⌊log₂ |q|⌋` of a rational number other than zero. -/
def ilog2 (q : ℚ) : ℤ :=
  let e0 : ℤ := (bitLength q.num.natAbs q.num.natAbs : ℤ) - (bitLength q.den q.den : ℤ)
  if (2 : ℚ) ^ e0 ≤ |q| then e0 else e0 - 1

/-- The integer nearest to a rational number, the even one of two that are equally near. -/
def roundHalfEven (q : ℚ) : ℤ :=
  let f := Rat.floor q
  let r := q - f
  if r < 1 / 2 then f
  else if 1 / 2 < r then f + 1
  else if f % 2 = 0 then f else f + 1

/-- The binary64 value of an exact result: the nearest number with 53 significant bits
(ties to even) in the range of exponents from -1022 (subnormal numbers below) to
1023, an infinity beyond. -/
def rnd (q : ℚ) : Value :=
  if q = 0 then .finite 0
  else
    let e := max (ilog2 q) (-1022)
    let ulp : ℚ := (2 : ℚ) ^ (e - 52)
    let r : ℚ := (roundHalfEven (|q| / ulp) : ℚ) * ulp
    if (2 : ℚ) ^ (1024 : ℤ) ≤ r then .infinite (decide (q < 0))
    else .finite (if q < 0 then -r else r)

/-- The operator `+` of doubles. -/
def add : Value → Value → Value
  | .finite a, .finite b => rnd (a + b)
  | .finite _, .infinite s => .infinite s
  | .infinite s, .finite _ => .infinite s
  | .infinite s, .infinite t => if s = t then .infinite s else .nan
  | _, _ => .nan

/-- The operator `*` of doubles. -/
def mul : Value → Value → Value
  | .finite a, .finite b => rnd (a * b)
  | .finite a, .infinite s => if a = 0 then .nan else .infinite (xor s (decide (a < 0)))
  | .infinite s, .finite b => if b = 0 then .nan else .infinite (xor s (decide (b < 0)))
  | .infinite s, .infinite t => .infinite (xor s t)
  | _, _ => .nan

/-- The operator `/` of doubles. -/
def div : Value → Value → Value
  | .finite a, .finite b =>
    if b = 0 then (if a = 0 then .nan else .infinite (decide (a < 0))) else rnd (a / b)
  | .finite _, .infinite _ => .finite 0
  | .infinite s, .finite b => .infinite (xor s (decide (b < 0)))
  | _, _ => .nan

/-- The unit roundoff of binary64: half the distance from 1 to the next number. -/
def unitRoundoff : ℚ := 1 / 2 ^ 53

/-- Half the distance between neighbouring subnormal numbers: the rounding error of a
result below the normal range. -/
def underflowUnit : ℚ := 1 / 2 ^ 1075

/-- What lines 67-86 of `GetWeightedMean` set a linear field (`x`, `y` or `s`) to, in
binary64 arithmetic, for the values of that field and the weights (all of them
doubles, in sequences of the same size): the loop accumulates `sum` and `sum_weight`,
then the field is set to `sum * denominator` with `denominator = 1.0 / sum_weight`. -/
def linearField (values weights : List ℚ) : Value :=
  let sums := (values.zip weights).foldl
    (fun sums vw => (add sums.1 (mul (.finite vw.1) (.finite vw.2)), add sums.2 (.finite vw.2)))
    (Value.finite 0, Value.finite 0)
  let denominator := div (.finite 1) sums.2
  mul sums.1 denominator

end binary64

/-! ## The quantities the specification names -/

namespace Spec

variable {K : Type} [LinearOrderedField K]

/-- The weighted arithmetic mean `Σ(value_i · weight_i) / Σ(weight_i)`. -/
def weightedMean (values weights : List K) : K :=
  (List.zipWith (fun v w => v * w) values weights).sum / weights.sum

/-- The accumulated direction vector `V = Σ (weight_i·cos θ_i, weight_i·sin θ_i)` of
values in eighths of a turn, with `θ_i = value_i · (2π/8)`. -/
def directionVector (m : CMath K) (values weights : List K) : K × K :=
  ((List.zipWith (fun v w => w * m.cos (v * (2 * m.M_PI / 8))) values weights).sum,
   (List.zipWith (fun v w => w * m.sin (v * (2 * m.M_PI / 8))) values weights).sum)

/-- The squared magnitude of a vector. -/
def squaredMagnitude (v : K × K) : K := v.1 ^ 2 + v.2 ^ 2

/-- The circular mean `atan2(V.y, V.x) · 8 / (2π)` in eighths of a turn. -/
def circularMean (m : CMath K) (values weights : List K) : K :=
  m.atan2 (directionVector m values weights).2 (directionVector m values weights).1 * 8 / (2 * m.M_PI)

end Spec

namespace vision.HeadBodyParticleGenerator

variable {K : Type} [LinearOrderedField K]

/-- What `mean_particle` holds once the three linear fields are set: the weighted
arithmetic means, not finite when the weights sum to zero. -/
def linearFieldsSet (particles : List (HeadBodyParticle K)) (weights : List K)
    (mean_particle : HeadBodyParticle (Dbl K)) : HeadBodyParticle (Dbl K) :=
  { x := if weights.sum = 0 then none
         else some (Spec.weightedMean (particles.map (fun p => p.x)) weights)
    y := if weights.sum = 0 then none
         else some (Spec.weightedMean (particles.map (fun p => p.y)) weights)
    s := if weights.sum = 0 then none
         else some (Spec.weightedMean (particles.map (fun p => p.s)) weights)
    dh := mean_particle.dh
    db := mean_particle.db }

end vision.HeadBodyParticleGenerator

/-! ## The adapter `StlMap1d` (`src/numarray1d/stl_map1d.hpp`)

The type `int` is idealised as `ℤ`: keys, indices and sizes stay within its range. -/

/-- How a call ends other than by its return: a failed `assert`, or an access outside
the bounds of a `std::vector`, whose behaviour is undefined. -/
inductive Fault
  | assertion_failure
  | out_of_range
  deriving DecidableEq

/-- The type `std::map<int, T>`: a map is the list of its entries in the order of their
keys. -/
structure stdmap (T : Type) where
  entries : List (ℤ × T)

namespace stdmap

variable {T : Type}

/-- The value stored under a key, if the key is in the map. -/
def find : List (ℤ × T) → ℤ → Option T
  | [], _ => none
  | (k', v') :: rest, k => if k = k' then some v' else find rest k

/-- The entries after the insertion of a key that is not in the map. -/
def insert : List (ℤ × T) → ℤ → T → List (ℤ × T)
  | [], k, v => [(k, v)]
  | (k', v') :: rest, k, v =>
    if k < k' then (k, v) :: (k', v') :: rest else (k', v') :: insert rest k v

/-- The entries after an assignment to the value stored under a key. -/
def assign : List (ℤ × T) → ℤ → T → List (ℤ × T)
  | [], _, _ => []
  | (k', v') :: rest, k, v =>
    if k = k' then (k', v) :: rest else (k', v') :: assign rest k v

/-- The member `size()`. -/
def size (m : stdmap T) : ℕ := m.entries.length

/-- The member `operator[]( k )`: the value under `k`; a key that is not in the map is
inserted first, with the value-initialised `T()`. -/
def subscript (T0 : T) (m : stdmap T) (k : ℤ) : T × stdmap T :=
  match find m.entries k with
  | some v => (v, m)
  | none => (T0, ⟨insert m.entries k T0⟩)

/-- The statement `m[k] = v`: an assignment through the reference that `operator[]`
returns. -/
def subscript_assign (T0 : T) (m : stdmap T) (k : ℤ) (v : T) : stdmap T :=
  ⟨assign (subscript T0 m k).2.entries k v⟩

end stdmap

namespace StlMap1d

variable {T : Type}

/-- The method `length()`, of the adapter of the backing map `body_`. -/
def length (body_ : stdmap T) : ℤ := (body_.size : ℤ)

/-- The method `coeff( index )`: the value it returns and the backing map after the
call. -/
def coeff (T0 : T) (body_ : stdmap T) (index : ℤ) : Except Fault (T × stdmap T) :=
  if index ≥ 0 ∧ index < length body_ then .ok (stdmap.subscript T0 body_ index)
  else .error .assertion_failure

/-- The method `set_coeff( index, value )`: the backing map after the call. -/
def set_coeff (T0 : T) (body_ : stdmap T) (index : ℤ) (value : T) : Except Fault (stdmap T) :=
  if index ≥ 0 ∧ index < length body_ then .ok (stdmap.subscript_assign T0 body_ index value)
  else .error .assertion_failure

/-- The method `SetCoeff<T1>( index, value )`; `static_cast_T` is the conversion
`static_cast<T>` from `T1`. -/
def SetCoeff {T1 : Type} (static_cast_T : T1 → T) (T0 : T) (body_ : stdmap T) (index : ℤ)
    (value : T1) : Except Fault (stdmap T) :=
  if index ≥ 0 ∧ index < length body_ then
    .ok (stdmap.subscript_assign T0 body_ index (static_cast_T value))
  else .error .assertion_failure

end StlMap1d

/-! ## The conversions `Convert` (`src/core/convert/eigen_stl_convert.hpp`) -/

/-- The type `Eigen::Array<T, row_num, col_num>`: its dimensions and its coefficients
(those inside the dimensions are the ones that count). -/
structure EigenArray (T : Type) where
  rows : ℕ
  cols : ℕ
  coeff : ℕ → ℕ → T

namespace EigenArray

variable {T : Type}

/-- The array `Zero( rows, cols )`. -/
def Zero (zero : T) (rows cols : ℕ) : EigenArray T :=
  { rows := rows, cols := cols, coeff := fun _ _ => zero }

/-- The statement `eigen_array.coeffRef( row, col ) = v`. -/
def assign (a : EigenArray T) (row col : ℕ) (v : T) : EigenArray T :=
  { a with coeff := fun r c => if r = row ∧ c = col then v else a.coeff r c }

end EigenArray

namespace Convert

variable {T : Type}

/-- The overload `Convert( eigen_array, std_vector )` from a two-dimensional array to a
vector of vectors: the vector after the call. -/
def array_to_vectors (row_num col_num : ℤ) (eigen_array : EigenArray T)
    (std_vector : List (List T)) : Except Fault (List (List T)) :=
  if ¬ std_vector.isEmpty then .error .assertion_failure
  else
    let rows := if row_num > 0 then row_num.toNat else eigen_array.rows
    let cols := if col_num > 0 then col_num.toNat else eigen_array.cols
    .ok ((List.range rows).foldl
      (fun std_vector row =>
        let row_vector := (List.range cols).foldl
          (fun row_vector col => row_vector ++ [eigen_array.coeff row col]) []
        std_vector ++ [row_vector])
      std_vector)

/-- The element `std_vector[row][col]`. -/
def element (std_vector : List (List T)) (row col : ℕ) : Except Fault T :=
  match std_vector[row]? with
  | none => .error .out_of_range
  | some row_vector =>
    match row_vector[col]? with
    | none => .error .out_of_range
    | some v => .ok v

/-- The overload `Convert( std_vector, eigen_array )` from a vector of vectors to a
two-dimensional array: the array after the call.  `zero` is the zero of `T`. -/
def vectors_to_array (zero : T) (row_num col_num : ℤ) (std_vector : List (List T)) :
    Except Fault (EigenArray T) :=
  let size_of_std_vector : ℤ := std_vector.length
  match std_vector[0]? with
  | none => .error .out_of_range
  | some std_vector_0 =>
    let size_of_std_vector_0 : ℤ := std_vector_0.length
    if ¬ (row_num < 0 ∨ row_num = size_of_std_vector) then .error .assertion_failure
    else if ¬ (col_num < 0 ∨ col_num = size_of_std_vector_0) then .error .assertion_failure
    else
      let rows := size_of_std_vector.toNat
      let cols := size_of_std_vector_0.toNat
      (List.range rows).foldlM
        (fun eigen_array row =>
          (List.range cols).foldlM
            (fun eigen_array col =>
              match element std_vector row col with
              | .error fault => .error fault
              | .ok v => .ok (eigen_array.assign row col v))
            eigen_array)
        (EigenArray.Zero zero rows cols)

end Convert

/-! ## Lemmas -/

section Real

open Real

theorem arg_polar {r θ : ℝ} (hr : 0 < r) (h1 : -π < θ) (h2 : θ ≤ π) :
    Complex.arg ⟨r * Real.cos θ, r * Real.sin θ⟩ = θ := by
  have e : (⟨r * Real.cos θ, r * Real.sin θ⟩ : ℂ) =
      (r : ℂ) * (Complex.cos θ + Complex.sin θ * Complex.I) := by
    apply Complex.ext
    · simp [← Complex.ofReal_cos, ← Complex.ofReal_sin]
    · simp [← Complex.ofReal_cos, ← Complex.ofReal_sin]
  rw [e, Complex.arg_mul_cos_add_sin_mul_I hr ⟨h1, h2⟩]

theorem arg_of_polar {x y r θ : ℝ} (hx : x = r * Real.cos θ) (hy : y = r * Real.sin θ)
    (hr : 0 < r) (h1 : -π < θ) (h2 : θ ≤ π) : Complex.arg ⟨x, y⟩ = θ := by
  have e : (⟨x, y⟩ : ℂ) = ⟨r * Real.cos θ, r * Real.sin θ⟩ := Complex.ext hx hy
  rw [e, arg_polar hr h1 h2]

theorem polar_of_ne (x y : ℝ) (hx : x ≠ 0) :
    x = x * √(1 + (y / x) ^ 2) * Real.cos (Real.arctan (y / x)) ∧
    y = x * √(1 + (y / x) ^ 2) * Real.sin (Real.arctan (y / x)) := by
  have hpos : 0 < √(1 + (y / x) ^ 2) := Real.sqrt_pos.mpr (by positivity)
  rw [Real.cos_arctan, Real.sin_arctan]
  constructor
  · rw [mul_assoc, mul_one_div_cancel hpos.ne', mul_one]
  · rw [mul_assoc, mul_div_cancel₀ _ hpos.ne', mul_div_cancel₀ _ hx]

/-- The case definition of `atan2` is the argument of the complex number `x + y·i`. -/
theorem atan2_eq_arg (y x : ℝ) : atan2 y x = Complex.arg ⟨x, y⟩ := by
  have hpos : 0 < √(1 + (y / x) ^ 2) := Real.sqrt_pos.mpr (by positivity)
  have hlo := Real.neg_pi_div_two_lt_arctan (y / x)
  have hhi := Real.arctan_lt_pi_div_two (y / x)
  have hpi := Real.pi_pos
  unfold atan2
  split_ifs with h1 h2 h3 h4 h5
  · obtain ⟨ex, ey⟩ := polar_of_ne x y h1.ne'
    exact (arg_of_polar ex ey (mul_pos h1 hpos) (by linarith) (by linarith)).symm
  · have hle : Real.arctan (y / x) ≤ 0 := by
      rw [← Real.arctan_zero]
      exact Real.arctan_strictMono.monotone (div_nonpos_of_nonneg_of_nonpos h3 h2.le)
    obtain ⟨ex, ey⟩ := polar_of_ne x y h2.ne
    have ex2 : x = -(x * √(1 + (y / x) ^ 2)) * Real.cos (Real.arctan (y / x) + π) := by
      rw [Real.cos_add_pi]; linarith
    have ey2 : y = -(x * √(1 + (y / x) ^ 2)) * Real.sin (Real.arctan (y / x) + π) := by
      rw [Real.sin_add_pi]; linarith
    exact (arg_of_polar ex2 ey2 (by nlinarith) (by linarith) (by linarith)).symm
  · have hge : 0 < Real.arctan (y / x) := by
      rw [← Real.arctan_zero]
      exact Real.arctan_strictMono (div_pos_of_neg_of_neg (not_le.mp h3) h2)
    obtain ⟨ex, ey⟩ := polar_of_ne x y h2.ne
    have ex2 : x = -(x * √(1 + (y / x) ^ 2)) * Real.cos (Real.arctan (y / x) - π) := by
      rw [Real.cos_sub_pi]; linarith
    have ey2 : y = -(x * √(1 + (y / x) ^ 2)) * Real.sin (Real.arctan (y / x) - π) := by
      rw [Real.sin_sub_pi]; linarith
    exact (arg_of_polar ex2 ey2 (by nlinarith) (by linarith) (by linarith)).symm
  · have hx : x = 0 := le_antisymm (not_lt.mp h1) (not_lt.mp h2)
    subst hx
    exact (Complex.arg_eq_pi_div_two_iff.mpr ⟨rfl, h4⟩).symm
  · have hx : x = 0 := le_antisymm (not_lt.mp h1) (not_lt.mp h2)
    subst hx
    exact (Complex.arg_eq_neg_pi_div_two_iff.mpr ⟨rfl, h5⟩).symm
  · have hx : x = 0 := le_antisymm (not_lt.mp h1) (not_lt.mp h2)
    have hy : y = 0 := le_antisymm (not_lt.mp h4) (not_lt.mp h5)
    subst hx; subst hy
    exact (Complex.arg_eq_zero_iff.mpr ⟨le_refl _, rfl⟩).symm

/-- The angle of a point given in polar form with an angle in `(-π, π]`. -/
theorem atan2_polar {r θ : ℝ} (hr : 0 < r) (h1 : -π < θ) (h2 : θ ≤ π) :
    atan2 (r * Real.sin θ) (r * Real.cos θ) = θ := by
  rw [atan2_eq_arg, arg_polar hr h1 h2]

end Real

/-! ## The arithmetic of binary64: the accuracy of a linear field -/

namespace binary64

/-- With enough fuel, `n` is below two to the number of its digits. -/
theorem lt_two_pow_bitLength (fuel n : ℕ) (h : n ≤ fuel) : n < 2 ^ bitLength fuel n := by
  induction fuel generalizing n with
  | zero =>
    have : n = 0 := Nat.le_zero.mp h
    simp [bitLength, this]
  | succ f ih =>
    unfold bitLength
    split_ifs with h0
    · simp [h0]
    · have h2 : n / 2 ≤ f := by omega
      have := ih (n / 2) h2
      rw [pow_succ]
      omega

/-- A number other than zero is at least two to the number of its digits, less one. -/
theorem two_pow_bitLength_le (fuel n : ℕ) (h : n ≤ fuel) (h0 : n ≠ 0) :
    2 ^ bitLength fuel n ≤ 2 * n := by
  induction fuel generalizing n with
  | zero => exact absurd (Nat.le_zero.mp h) h0
  | succ f ih =>
    unfold bitLength
    rw [if_neg h0, pow_succ]
    by_cases h1 : n / 2 = 0
    · have : n = 1 := by omega
      subst this
      cases f <;> simp [bitLength]
    · have h2 : n / 2 ≤ f := by omega
      have := ih (n / 2) h2 h1
      omega

/-- The exponent that `ilog2` returns is not too large: `2 ^ ilog2 q ≤ |q|`. -/
theorem two_zpow_ilog2_le (q : ℚ) (hq : q ≠ 0) : (2 : ℚ) ^ ilog2 q ≤ |q| := by
  unfold ilog2
  simp only
  split_ifs with h
  · exact h
  · have hnum : q.num.natAbs ≠ 0 := by
      simpa using hq
    have hden : q.den ≠ 0 := q.den_nz
    have h1 := two_pow_bitLength_le q.num.natAbs q.num.natAbs le_rfl hnum
    have h2 := lt_two_pow_bitLength q.den q.den le_rfl
    have habs : |q| = (q.num.natAbs : ℚ) / (q.den : ℚ) := by
      conv_lhs => rw [← Rat.num_div_den q]
      rw [abs_div, Nat.abs_cast]
      rw [Nat.cast_natAbs, Int.cast_abs]
    rw [habs]
    have hd : (0 : ℚ) < q.den := by exact_mod_cast Nat.pos_of_ne_zero hden
    rw [le_div_iff₀ hd]
    have e : (2 : ℚ) ^ ((bitLength q.num.natAbs q.num.natAbs : ℤ) - (bitLength q.den q.den : ℤ) - 1) =
        (2 : ℚ) ^ (bitLength q.num.natAbs q.num.natAbs) / (2 : ℚ) ^ (bitLength q.den q.den) / 2 := by
      rw [zpow_sub₀ (by norm_num), zpow_sub₀ (by norm_num)]
      simp
    rw [e]
    have h1q : (2 : ℚ) ^ (bitLength q.num.natAbs q.num.natAbs) ≤ 2 * (q.num.natAbs : ℚ) := by
      exact_mod_cast h1
    have h2q : (q.den : ℚ) ≤ (2 : ℚ) ^ (bitLength q.den q.den) := by
      exact_mod_cast h2.le
    have hp : (0 : ℚ) < (2 : ℚ) ^ (bitLength q.den q.den) := by positivity
    rw [div_div, div_mul_eq_mul_div, div_le_iff₀ (by positivity)]
    calc (2 : ℚ) ^ (bitLength q.num.natAbs q.num.natAbs) * (q.den : ℚ)
        ≤ 2 * (q.num.natAbs : ℚ) * (2 : ℚ) ^ (bitLength q.den q.den) := by
          apply mul_le_mul h1q h2q hd.le (by positivity)
      _ = (q.num.natAbs : ℚ) * ((2 : ℚ) ^ (bitLength q.den q.den) * 2) := by ring

/-- The nearest integer is at most one half away. -/
theorem abs_roundHalfEven_sub_le (q : ℚ) : |(roundHalfEven q : ℚ) - q| ≤ 1 / 2 := by
  have h1 : ((Rat.floor q : ℤ) : ℚ) ≤ q := Int.floor_le q
  have h2 : q < ((Rat.floor q : ℤ) : ℚ) + 1 := Int.lt_floor_add_one q
  unfold roundHalfEven
  simp only
  rw [abs_le]
  split_ifs with a b c
  · constructor <;> linarith
  · push_cast
    constructor <;> linarith
  · constructor <;> linarith
  · push_cast
    constructor <;> linarith

/-- Rounding a number of magnitude at most `2 ^ 1023`: the result is finite, with a
relative error of at most `2⁻⁵³` and, below the normal range, an absolute error of at
most `2⁻¹⁰⁷⁵`. -/
theorem rnd_finite (q : ℚ) (hq : |q| ≤ 2 ^ 1023) :
    ∃ r : ℚ, rnd q = .finite r ∧ |r - q| ≤ |q| / 2 ^ 53 + 1 / 2 ^ 1075 := by
  by_cases h0 : q = 0
  · refine ⟨0, by simp [rnd, h0], ?_⟩
    simp [h0]
  · have hulp0 : (0 : ℚ) < (2 : ℚ) ^ (max (ilog2 q) (-1022) - 52) := by positivity
    have hround := abs_roundHalfEven_sub_le (|q| / (2 : ℚ) ^ (max (ilog2 q) (-1022) - 52))
    have he : (2 : ℚ) ^ (max (ilog2 q) (-1022)) ≤ |q| + 1 / 2 ^ 1022 := by
      rcases max_choice (ilog2 q) (-1022) with h | h
      · rw [h]
        have := two_zpow_ilog2_le q h0
        have : (0 : ℚ) ≤ 1 / 2 ^ 1022 := by positivity
        linarith
      · rw [h]
        have e : (2 : ℚ) ^ (-1022 : ℤ) = 1 / 2 ^ 1022 := by
          rw [zpow_neg, zpow_ofNat, one_div]
        rw [e]
        have := abs_nonneg q
        linarith
    have hulp : (2 : ℚ) ^ (max (ilog2 q) (-1022) - 52) =
        (2 : ℚ) ^ (max (ilog2 q) (-1022)) / 2 ^ 52 := by
      rw [zpow_sub₀ (by norm_num), zpow_ofNat]
    have herr : abs ((roundHalfEven (|q| / (2 : ℚ) ^ (max (ilog2 q) (-1022) - 52)) : ℚ) *
        (2 : ℚ) ^ (max (ilog2 q) (-1022) - 52) - |q|) ≤ |q| / 2 ^ 53 + 1 / 2 ^ 1075 := by
      have e : (roundHalfEven (|q| / (2 : ℚ) ^ (max (ilog2 q) (-1022) - 52)) : ℚ) *
          (2 : ℚ) ^ (max (ilog2 q) (-1022) - 52) - |q| =
          ((roundHalfEven (|q| / (2 : ℚ) ^ (max (ilog2 q) (-1022) - 52)) : ℚ) -
            |q| / (2 : ℚ) ^ (max (ilog2 q) (-1022) - 52)) *
          (2 : ℚ) ^ (max (ilog2 q) (-1022) - 52) := by
        field_simp
      rw [e, abs_mul, abs_of_pos hulp0]
      have h1 : |(roundHalfEven (|q| / (2 : ℚ) ^ (max (ilog2 q) (-1022) - 52)) : ℚ) -
            |q| / (2 : ℚ) ^ (max (ilog2 q) (-1022) - 52)| *
          (2 : ℚ) ^ (max (ilog2 q) (-1022) - 52) ≤
          1 / 2 * (2 : ℚ) ^ (max (ilog2 q) (-1022) - 52) :=
        mul_le_mul_of_nonneg_right hround hulp0.le
      refine le_trans h1 ?_
      rw [hulp]
      have h2 : (2 : ℚ) ^ (max (ilog2 q) (-1022)) / 2 ^ 52 ≤ (|q| + 1 / 2 ^ 1022) / 2 ^ 52 :=
        div_le_div_of_nonneg_right he (by positivity)
      have e2 : (|q| + 1 / 2 ^ 1022) / 2 ^ 52 = 2 * (|q| / 2 ^ 53 + 1 / 2 ^ 1075) := by
        field_simp
        ring
      rw [e2] at h2
      linarith
    have hfin : ¬ ((2 : ℚ) ^ (1024 : ℤ) ≤
        (roundHalfEven (|q| / (2 : ℚ) ^ (max (ilog2 q) (-1022) - 52)) : ℚ) *
          (2 : ℚ) ^ (max (ilog2 q) (-1022) - 52)) := by
      rw [not_le]
      have h1 := (abs_le.mp herr).2
      rw [zpow_ofNat]
      have h2 : |q| / 2 ^ 53 ≤ 2 ^ 1023 / 2 ^ 53 := div_le_div_of_nonneg_right hq (by positivity)
      have h3 : (2 : ℚ) ^ 1023 + 2 ^ 1023 / 2 ^ 53 + 1 / 2 ^ 1075 < 2 ^ 1024 := by norm_num
      linarith
    unfold rnd
    simp only [h0, if_false, hfin]
    refine ⟨_, rfl, ?_⟩
    split_ifs with hneg
    · rw [abs_of_neg hneg] at herr ⊢
      rw [show -((roundHalfEven (-q / (2 : ℚ) ^ (max (ilog2 q) (-1022) - 52)) : ℚ) *
          (2 : ℚ) ^ (max (ilog2 q) (-1022) - 52)) - q =
          -((roundHalfEven (-q / (2 : ℚ) ^ (max (ilog2 q) (-1022) - 52)) : ℚ) *
          (2 : ℚ) ^ (max (ilog2 q) (-1022) - 52) - -q) by ring, abs_neg]
      exact herr
    · rw [abs_of_nonneg (not_lt.mp hneg)] at herr ⊢
      exact herr

theorem unitRoundoff_pos : 0 < unitRoundoff := by
  unfold unitRoundoff
  positivity

theorem underflowUnit_pos : 0 < underflowUnit := by
  unfold underflowUnit
  positivity

/-- The rounding of a number of magnitude at most `2 ^ 1023`, in terms of the unit
roundoff. -/
theorem rnd_error (q : ℚ) (hq : |q| ≤ 2 ^ 1023) :
    ∃ r : ℚ, rnd q = .finite r ∧ |r - q| ≤ unitRoundoff * |q| + underflowUnit := by
  obtain ⟨r, h1, h2⟩ := rnd_finite q hq
  refine ⟨r, h1, ?_⟩
  unfold unitRoundoff underflowUnit
  rw [one_div_mul_eq_div]
  exact h2

/-- The two components of the loop can be followed one by one. -/
theorem foldl_pair {α β γ : Type} (f : β → α → β) (g : γ → α → γ) (l : List α) (b : β) (c : γ) :
    l.foldl (fun s a => (f s.1 a, g s.2 a)) (b, c) = (l.foldl f b, l.foldl g c) := by
  induction l generalizing b c with
  | nil => rfl
  | cons a l ih => simp only [List.foldl_cons, ih]

/-- A sum accumulated in binary64, of terms that carry a rounding error themselves:
after `k` terms the error is at most `k · (4·u·T + 3·η)` for a bound `T` on the sum of
the magnitudes of all terms. -/
theorem foldl_add_error {α : Type} (g : α → Value) (x : α → ℚ) (T : ℚ) (N : ℕ)
    (hN : (4 * (N : ℚ) + 1) * unitRoundoff ≤ 1) (hT0 : 0 ≤ T) (hT : T ≤ 2 ^ 1000) :
    ∀ (l : List α) (k : ℕ) (a S A : ℚ),
      (∀ t ∈ l, ∃ p : ℚ, g t = .finite p ∧
        |p - x t| ≤ unitRoundoff * |x t| + underflowUnit) →
      k + l.length ≤ N → |S| ≤ A → A + (l.map (fun t => |x t|)).sum ≤ T →
      |a - S| ≤ (k : ℚ) * (4 * unitRoundoff * T + 3 * underflowUnit) →
      ∃ a' : ℚ, l.foldl (fun s t => add s (g t)) (.finite a) = .finite a' ∧
        |a' - (S + (l.map x).sum)| ≤
          ((k + l.length : ℕ) : ℚ) * (4 * unitRoundoff * T + 3 * underflowUnit) := by
  have hu := unitRoundoff_pos
  have hη := underflowUnit_pos
  intro l
  induction l with
  | nil =>
    intro k a S A _ _ _ _ herr
    exact ⟨a, rfl, by simpa using herr⟩
  | cons t ts ih =>
    intro k a S A hg hk hS hA herr
    obtain ⟨p, hp, hpx⟩ := hg t (List.mem_cons_self t ts)
    simp only [List.map_cons, List.sum_cons, List.length_cons] at hA hk ⊢
    have hrest : 0 ≤ (ts.map (fun t => |x t|)).sum :=
      List.sum_nonneg (by
        intro y hy
        obtain ⟨z, _, rfl⟩ := List.mem_map.mp hy
        exact abs_nonneg _)
    have hA0 : 0 ≤ A := le_trans (abs_nonneg S) hS
    have hx0 : 0 ≤ |x t| := abs_nonneg _
    have hxT : |x t| ≤ T := by linarith
    have hkN : (k : ℚ) + 1 ≤ N := by exact_mod_cast (by omega : k + 1 ≤ N)
    have hk0 : (0 : ℚ) ≤ k := Nat.cast_nonneg k
    -- the products that the bounds need
    have hNu : (N : ℚ) * unitRoundoff ≤ 1 / 4 := by
      linarith only [hN, hu]
    have hku : (k : ℚ) * unitRoundoff ≤ (N : ℚ) * unitRoundoff - unitRoundoff := by
      have := mul_le_mul_of_nonneg_right hkN hu.le
      linarith only [this]
    have h4ku : 4 * ((k : ℚ) * unitRoundoff) + 4 * unitRoundoff ≤ 1 := by
      linarith only [hNu, hku]
    have hkuT : (k : ℚ) * unitRoundoff * T ≤ T / 4 := by
      have := mul_le_mul_of_nonneg_right h4ku hT0
      linarith only [this, mul_nonneg hu.le hT0]
    have huT : unitRoundoff * T ≤ T := by
      have := mul_le_mul_of_nonneg_right h4ku hT0
      linarith only [this, mul_nonneg (mul_nonneg hk0 hu.le) hT0, mul_nonneg hu.le hT0]
    have hkηη : (3 * (k : ℚ) + 1) * unitRoundoff * underflowUnit ≤ underflowUnit := by
      have h : (3 * (k : ℚ) + 1) * unitRoundoff ≤ 1 := by
        linarith only [h4ku, mul_nonneg hk0 hu.le, hu]
      have := mul_le_mul_of_nonneg_right h hη.le
      linarith only [this]
    have hkη1 : (3 * (k : ℚ) + 1) * underflowUnit ≤ 1 := by
      have h : (k : ℚ) ≤ 2 ^ 53 := by
        have h' : (k : ℚ) * unitRoundoff ≤ 1 := by linarith only [h4ku, hu]
        unfold unitRoundoff at h'
        rw [mul_one_div, div_le_iff₀ (by positivity)] at h'
        linarith only [h']
      unfold underflowUnit
      rw [mul_one_div, div_le_iff₀ (by positivity)]
      have : (3 : ℚ) * 2 ^ 53 + 1 ≤ 1 * 2 ^ 1075 := by norm_num
      linarith only [h, this]
    -- the exact sum is within the range
    have hap : |a + p| ≤ 2 * T + unitRoundoff * T + (3 * (k : ℚ) + 1) * underflowUnit := by
      have e : a + p = (a - S) + S + (p - x t) + x t := by ring
      rw [e]
      have h1 := abs_add (a - S + S + (p - x t)) (x t)
      have h2 := abs_add (a - S + S) (p - x t)
      have h3 := abs_add (a - S) S
      have h4 : unitRoundoff * |x t| ≤ unitRoundoff * T :=
        mul_le_mul_of_nonneg_left hxT hu.le
      linarith only [h1, h2, h3, h4, herr, hS, hA, hpx, hkuT, hrest, hx0, hA0]
    have hrange : |a + p| ≤ 2 ^ 1023 := by
      have : (2 : ℚ) * 2 ^ 1000 + 2 ^ 1000 + 1 ≤ 2 ^ 1023 := by norm_num
      linarith only [this, hap, hT, huT, hkη1]
    obtain ⟨a', ha', herr'⟩ := rnd_error (a + p) hrange
    have hstep : add (.finite a) (g t) = .finite a' := by
      rw [hp]
      exact ha'
    have hnew : |a' - (S + x t)| ≤
        ((k + 1 : ℕ) : ℚ) * (4 * unitRoundoff * T + 3 * underflowUnit) := by
      have e : a' - (S + x t) = (a' - (a + p)) + (a - S) + (p - x t) := by ring
      rw [e]
      have h1 := abs_add (a' - (a + p) + (a - S)) (p - x t)
      have h2 := abs_add (a' - (a + p)) (a - S)
      have h4 : unitRoundoff * |x t| ≤ unitRoundoff * T :=
        mul_le_mul_of_nonneg_left hxT hu.le
      have h5 : unitRoundoff * |a + p| ≤ unitRoundoff *
          (2 * T + unitRoundoff * T + (3 * (k : ℚ) + 1) * underflowUnit) :=
        mul_le_mul_of_nonneg_left hap hu.le
      have h6 : unitRoundoff * (unitRoundoff * T) ≤ unitRoundoff * T :=
        mul_le_mul_of_nonneg_left huT hu.le
      push_cast
      linarith only [h1, h2, h4, h5, h6, herr, herr', hpx, hkηη]
    obtain ⟨b, hb, hberr⟩ := ih (k + 1) a' (S + x t) (A + |x t|)
      (fun s hs => hg s (List.mem_cons_of_mem t hs)) (by omega)
      (le_trans (abs_add S (x t)) (by linarith only [hS])) (by linarith only [hA]) hnew
    refine ⟨b, ?_, ?_⟩
    · rw [List.foldl_cons, hstep]
      exact hb
    · rw [show S + (x t + (ts.map x).sum) = S + x t + (ts.map x).sum by ring,
        show k + (ts.length + 1) = k + 1 + ts.length by omega]
      exact hberr

/-- The last two operations, `denominator = 1.0 / sum_weight` and `sum * denominator`, on
sums that carry the error of their accumulation: the result is finite and is the
quotient of the exact sums up to a relative error of `(ν + 1) · 2⁻⁴⁹` of `T / W`. -/
theorem mul_div_error (ν S T W s t : ℚ) (hν0 : 0 ≤ ν) (hν : ν ≤ 2 ^ 20) (hST : |S| ≤ T)
    (hW1 : 1 / 2 ^ 100 ≤ W) (hW2 : W ≤ 2 ^ 100) (hT : T ≤ 2 ^ 900)
    (hs : |s - S| ≤ ν * (4 * unitRoundoff * T + 3 * underflowUnit))
    (ht : |t - W| ≤ ν * (4 * unitRoundoff * W + 3 * underflowUnit)) :
    ∃ r : ℚ, mul (.finite s) (div (.finite 1) (.finite t)) = .finite r ∧
      |r - S / W| ≤ (ν + 1) / 2 ^ 49 * (T / W) + 1 / 2 ^ 900 := by
  have hW0 : 0 < W := lt_of_lt_of_le (by positivity) hW1
  have hT0 : 0 ≤ T := le_trans (abs_nonneg S) hST
  have hu : unitRoundoff = 1 / 2 ^ 53 := rfl
  have hη : underflowUnit = 1 / 2 ^ 1075 := rfl
  rw [hu, hη] at hs ht
  -- the reciprocal of the exact weight sum
  obtain ⟨I, hI⟩ : ∃ I : ℚ, I = 1 / W := ⟨_, rfl⟩
  have hI0 : 0 < I := by rw [hI]; exact one_div_pos.mpr hW0
  have hWI : W * I = 1 := by rw [hI]; field_simp
  have hI2 : I ≤ 2 ^ 100 := by
    rw [hI, div_le_iff₀ hW0]
    have := mul_le_mul_of_nonneg_left hW1 (by positivity : (0 : ℚ) ≤ 2 ^ 100)
    have e : (2 : ℚ) ^ 100 * (1 / 2 ^ 100) = 1 := by norm_num
    linarith only [this, e]
  -- products of the bounds
  have hνI : ν * I ≤ 2 ^ 20 * I := mul_le_mul_of_nonneg_right hν hI0.le
  have hνI0 : 0 ≤ ν * I := mul_nonneg hν0 hI0.le
  have hνW : ν * W ≤ 2 ^ 20 * W := mul_le_mul_of_nonneg_right hν hW0.le
  have hX0 : 0 ≤ T * I := mul_nonneg hT0 hI0.le
  have hX : T * I ≤ 2 ^ 900 * 2 ^ 100 := mul_le_mul hT hI2 hI0.le (by positivity)
  have hνX : ν * (T * I) ≤ 2 ^ 20 * (T * I) := mul_le_mul_of_nonneg_right hν hX0
  have hνX0 : 0 ≤ ν * (T * I) := mul_nonneg hν0 hX0
  -- the computed weight sum is at least half the exact one
  have ht2 : W / 2 ≤ t := by
    have h1 := (abs_le.mp ht).1
    have n1 : (2 : ℚ) ^ 20 * (3 * (1 / 2 ^ 1075)) ≤ 1 / 2 ^ 100 / 4 := by norm_num
    have n2 : ν * (3 * (1 / 2 ^ 1075)) ≤ 2 ^ 20 * (3 * (1 / 2 ^ 1075)) :=
      mul_le_mul_of_nonneg_right hν (by positivity)
    have n3 : (4 : ℚ) * (1 / 2 ^ 53) * (2 ^ 20 * W) ≤ W / 4 := by
      have : (4 : ℚ) * (1 / 2 ^ 53) * 2 ^ 20 ≤ 1 / 4 := by norm_num
      have := mul_le_mul_of_nonneg_right this hW0.le
      linarith only [this]
    linarith only [h1, n1, n2, n3, hνW, hW1]
  have ht0 : 0 < t := lt_of_lt_of_le (by positivity) ht2
  obtain ⟨J, hJ⟩ : ∃ J : ℚ, J = 1 / t := ⟨_, rfl⟩
  have hJ0 : 0 < J := by rw [hJ]; exact one_div_pos.mpr ht0
  have htJ : t * J = 1 := by rw [hJ]; field_simp
  have hJI : J ≤ 2 * I := by
    rw [hJ, hI, div_le_iff₀ ht0]
    have : 2 * (1 / W) * t = 2 * t / W := by ring
    rw [this, le_div_iff₀ hW0]
    linarith only [ht2]
  -- the quotient 1.0 / sum_weight
  have hJr : |1 / t| ≤ 2 ^ 1023 := by
    rw [← hJ, abs_of_pos hJ0]
    have : (2 : ℚ) * 2 ^ 100 ≤ 2 ^ 1023 := by norm_num
    linarith only [hJI, hI2, this]
  obtain ⟨d, hd, hderr⟩ := rnd_error (1 / t) hJr
  rw [← hJ, abs_of_pos hJ0, hu, hη] at hderr
  have hdiv : div (.finite 1) (.finite t) = .finite d := by
    simp only [div, ht0.ne', if_false]
    exact hd
  have hJI2 : |J - I| ≤ (1 / 2 ^ 53) * (8 * (ν * I) + 2 * I) := by
    have e : J - I = (W - t) * J * I := by
      linear_combination (-J) * hWI + I * htJ
    rw [e, abs_mul, abs_mul, abs_of_pos hJ0, abs_of_pos hI0, abs_sub_comm]
    have h1 : |t - W| * J * I ≤ ν * (4 * (1 / 2 ^ 53) * W + 3 * (1 / 2 ^ 1075)) * J * I :=
      mul_le_mul_of_nonneg_right (mul_le_mul_of_nonneg_right ht hJ0.le) hI0.le
    have e2 : ν * (4 * (1 / 2 ^ 53) * W + 3 * (1 / 2 ^ 1075)) * J * I =
        (4 * (1 / 2 ^ 53) * ν * (W * I) + 3 * (1 / 2 ^ 1075) * (ν * I)) * J := by ring
    rw [e2, hWI] at h1
    have n1 : 3 * (1 / 2 ^ 1075) * (ν * I) ≤ 1 / 2 ^ 53 := by
      have : 3 * (1 / 2 ^ 1075) * (ν * I) ≤ 3 * (1 / 2 ^ 1075) * (2 ^ 20 * 2 ^ 100) :=
        mul_le_mul_of_nonneg_left (le_trans hνI (mul_le_mul_of_nonneg_left hI2 (by positivity)))
          (by positivity)
      refine le_trans this ?_
      norm_num
    have h2 : (4 * (1 / 2 ^ 53) * ν * 1 + 3 * (1 / 2 ^ 1075) * (ν * I)) * J ≤
        (4 * (1 / 2 ^ 53) * ν + 1 / 2 ^ 53) * J :=
      mul_le_mul_of_nonneg_right (by linarith only [n1]) hJ0.le
    have h3 : (4 * (1 / 2 ^ 53) * ν + 1 / 2 ^ 53) * J ≤
        (4 * (1 / 2 ^ 53) * ν + 1 / 2 ^ 53) * (2 * I) :=
      mul_le_mul_of_nonneg_left hJI (by linarith only [hν0])
    have e3 : (4 * (1 / 2 ^ 53) * ν + 1 / 2 ^ 53) * (2 * I) =
        (1 / 2 ^ 53) * (8 * (ν * I) + 2 * I) := by ring
    linarith only [h1, h2, h3, e3]
  have hηI : (1 : ℚ) / 2 ^ 1075 ≤ (1 / 2 ^ 53) * I := by
    have h1 : (1 : ℚ) / 2 ^ 1075 * W ≤ 1 / 2 ^ 1075 * 2 ^ 100 :=
      mul_le_mul_of_nonneg_left hW2 (by positivity)
    have h2 : (1 : ℚ) / 2 ^ 1075 * 2 ^ 100 ≤ 1 / 2 ^ 53 := by norm_num
    have h3 : (1 : ℚ) / 2 ^ 1075 * W * I ≤ 1 / 2 ^ 53 * I :=
      mul_le_mul_of_nonneg_right (le_trans h1 h2) hI0.le
    have e : (1 : ℚ) / 2 ^ 1075 * W * I = 1 / 2 ^ 1075 * (W * I) := by ring
    rw [e, hWI] at h3
    linarith only [h3]
  have hdI : |d - I| ≤ (1 / 2 ^ 53) * (8 * (ν * I) + 5 * I) := by
    have e : d - I = (d - J) + (J - I) := by ring
    rw [e]
    have h1 := abs_add (d - J) (J - I)
    have h2 : (1 : ℚ) / 2 ^ 53 * J ≤ 1 / 2 ^ 53 * (2 * I) :=
      mul_le_mul_of_nonneg_left hJI (by positivity)
    linarith only [h1, h2, hderr, hJI2, hηI]
  have hd2 : |d| ≤ 2 * I := by
    have e : d = (d - I) + I := by ring
    have h1 := abs_add (d - I) I
    rw [← e, abs_of_pos hI0] at h1
    have n1 : (1 : ℚ) / 2 ^ 53 * (8 * (2 ^ 20 * I) + 5 * I) ≤ I := by
      have : (1 : ℚ) / 2 ^ 53 * (8 * 2 ^ 20 + 5) ≤ 1 := by norm_num
      have := mul_le_mul_of_nonneg_right this hI0.le
      linarith only [this]
    linarith only [h1, hdI, n1, hνI]
  -- the product sum * denominator
  have hs2 : |s| ≤ T + ν * (4 * (1 / 2 ^ 53) * T + 3 * (1 / 2 ^ 1075)) := by
    have e : s = (s - S) + S := by ring
    have h1 := abs_add (s - S) S
    rw [← e] at h1
    linarith only [h1, hs, hST]
  have hsd : |s| * |d| ≤ 2 * (T * I) + 8 * (1 / 2 ^ 53) * (ν * (T * I)) +
      6 * (1 / 2 ^ 1075) * (ν * I) := by
    have h1 : |s| * |d| ≤ (T + ν * (4 * (1 / 2 ^ 53) * T + 3 * (1 / 2 ^ 1075))) * (2 * I) :=
      mul_le_mul hs2 hd2 (abs_nonneg d) (le_trans (abs_nonneg s) hs2)
    have e : (T + ν * (4 * (1 / 2 ^ 53) * T + 3 * (1 / 2 ^ 1075))) * (2 * I) =
        2 * (T * I) + 8 * (1 / 2 ^ 53) * (ν * (T * I)) + 6 * (1 / 2 ^ 1075) * (ν * I) := by ring
    rw [e] at h1
    exact h1
  have hνI2 : ν * I ≤ 2 ^ 20 * 2 ^ 100 :=
    le_trans hνI (mul_le_mul_of_nonneg_left hI2 (by positivity))
  have hsdr : |s * d| ≤ 2 ^ 1023 := by
    rw [abs_mul]
    have n1 : (2 : ℚ) * (2 ^ 900 * 2 ^ 100) + 8 * (1 / 2 ^ 53) * (2 ^ 20 * (2 ^ 900 * 2 ^ 100)) +
        6 * (1 / 2 ^ 1075) * (2 ^ 20 * 2 ^ 100) ≤ 2 ^ 1023 := by norm_num
    linarith only [hsd, n1, hX, hνX, hνI2]
  obtain ⟨r, hr, hrerr⟩ := rnd_error (s * d) hsdr
  rw [abs_mul, hu, hη] at hrerr
  refine ⟨r, ?_, ?_⟩
  · rw [hdiv]
    exact hr
  · have e : r - S / W = (r - s * d) + (s - S) * d + S * (d - I) := by
      rw [hI]
      ring
    have h1 := abs_add ((r - s * d) + (s - S) * d) (S * (d - I))
    have h2 := abs_add (r - s * d) ((s - S) * d)
    rw [abs_mul] at h1 h2
    have hB : |s - S| * |d| ≤ 8 * (1 / 2 ^ 53) * (ν * (T * I)) +
        6 * (1 / 2 ^ 1075) * (ν * I) := by
      have h := mul_le_mul hs hd2 (abs_nonneg d)
        (le_trans (abs_nonneg (s - S)) hs)
      have e : ν * (4 * (1 / 2 ^ 53) * T + 3 * (1 / 2 ^ 1075)) * (2 * I) =
          8 * (1 / 2 ^ 53) * (ν * (T * I)) + 6 * (1 / 2 ^ 1075) * (ν * I) := by ring
      rw [e] at h
      exact h
    have hC : |S| * |d - I| ≤ 8 * (1 / 2 ^ 53) * (ν * (T * I)) + 5 * (1 / 2 ^ 53) * (T * I) := by
      have h := mul_le_mul hST hdI (abs_nonneg (d - I)) hT0
      have e : T * (1 / 2 ^ 53 * (8 * (ν * I) + 5 * I)) =
          8 * (1 / 2 ^ 53) * (ν * (T * I)) + 5 * (1 / 2 ^ 53) * (T * I) := by ring
      rw [e] at h
      exact h
    have hA : (1 : ℚ) / 2 ^ 53 * (|s| * |d|) ≤ 1 / 2 ^ 53 * (2 * (T * I) +
        8 * (1 / 2 ^ 53) * (ν * (T * I)) + 6 * (1 / 2 ^ 1075) * (ν * I)) :=
      mul_le_mul_of_nonneg_left hsd (by positivity)
    have e2 : (ν + 1) / 2 ^ 49 * (T / W) = 16 * (1 / 2 ^ 53) * (ν * (T * I)) +
        16 * (1 / 2 ^ 53) * (T * I) := by
      rw [hI]
      ring
    rw [e, e2]
    -- what is left is linear in `T * I`, `ν * (T * I)` and `ν * I`
    have n1 : (1 : ℚ) / 2 ^ 53 * (8 * (1 / 2 ^ 53) * (ν * (T * I))) ≤
        1 / 2 ^ 53 * (T * I) := by
      have : (8 : ℚ) * (1 / 2 ^ 53) * (2 ^ 20 * (T * I)) ≤ T * I := by
        have : (8 : ℚ) * (1 / 2 ^ 53) * 2 ^ 20 ≤ 1 := by norm_num
        have := mul_le_mul_of_nonneg_right this hX0
        linarith only [this]
      have h := mul_le_mul_of_nonneg_left hνX (by positivity : (0 : ℚ) ≤ 8 * (1 / 2 ^ 53))
      have := mul_le_mul_of_nonneg_left (le_trans h this) (by positivity : (0 : ℚ) ≤ 1 / 2 ^ 53)
      linarith only [this]
    have n2 : (1 : ℚ) / 2 ^ 53 * (6 * (1 / 2 ^ 1075) * (ν * I)) + 6 * (1 / 2 ^ 1075) * (ν * I) +
        1 / 2 ^ 1075 ≤ 1 / 2 ^ 900 := by
      have h : (1 : ℚ) / 2 ^ 53 * (6 * (1 / 2 ^ 1075) * (2 ^ 20 * 2 ^ 100)) +
          6 * (1 / 2 ^ 1075) * (2 ^ 20 * 2 ^ 100) + 1 / 2 ^ 1075 ≤ 1 / 2 ^ 900 := by norm_num
      have h' := mul_le_mul_of_nonneg_left hνI2
        (by positivity : (0 : ℚ) ≤ 1 / 2 ^ 53 * (6 * (1 / 2 ^ 1075)) + 6 * (1 / 2 ^ 1075))
      linarith only [h, h']
    linarith only [h1, h2, hrerr, hA, hB, hC, n1, n2, hX0, hνX0]

/-- A sum over the pairs of two sequences, as a sum over `zipWith`. -/
theorem sum_map_zip (f g : ℚ → ℚ → ℚ) (values weights : List ℚ)
    (h : ∀ v, ∀ w ∈ weights, f v w = g v w) :
    ((values.zip weights).map (fun t => f t.1 t.2)).sum = (List.zipWith g values weights).sum := by
  induction values generalizing weights with
  | nil => simp
  | cons v vs ih =>
    cases weights with
    | nil => simp
    | cons w ws =>
      simp only [List.zip_cons_cons, List.map_cons, List.sum_cons, List.zipWith_cons_cons]
      rw [h v w (List.mem_cons_self w ws), ih ws (fun v' w' hw' => h v' w' (List.mem_cons_of_mem w hw'))]

/-- The weights of the pairs of two sequences of the same length sum to the sum of the
weights. -/
theorem sum_zipWith_snd (values weights : List ℚ) (hlen : values.length = weights.length) :
    (List.zipWith (fun _ w => w) values weights).sum = weights.sum := by
  induction values generalizing weights with
  | nil =>
    cases weights with
    | nil => rfl
    | cons w ws => simp at hlen
  | cons v vs ih =>
    cases weights with
    | nil => simp at hlen
    | cons w ws =>
      simp only [List.zipWith_cons_cons, List.sum_cons]
      rw [ih ws (by simpa using hlen)]

/-- The magnitude of a sum is at most the sum of the magnitudes. -/
theorem abs_sum_map_le {α : Type} (x : α → ℚ) (l : List α) :
    |(l.map x).sum| ≤ (l.map (fun t => |x t|)).sum := by
  induction l with
  | nil => simp
  | cons a l ih =>
    simp only [List.map_cons, List.sum_cons]
    exact le_trans (abs_add _ _) (by linarith only [ih])

/-- The accuracy of a linear field in binary64: for at most `2²⁰` particles, weights that
are not negative with a sum between `2⁻¹⁰⁰` and `2¹⁰⁰`, and values with
`Σ |value_i| · weight_i ≤ 2⁹⁰⁰`, the field is set to a finite number, which differs from
the weighted arithmetic mean by at most `(n + 1) · 2⁻⁴⁹` times the weighted mean of the
magnitudes, and `2⁻⁹⁰⁰`. -/
theorem linearField_error (values weights : List ℚ) (hlen : values.length = weights.length)
    (hn : values.length ≤ 2 ^ 20) (hw : ∀ w ∈ weights, 0 ≤ w)
    (hW1 : 1 / 2 ^ 100 ≤ weights.sum) (hW2 : weights.sum ≤ 2 ^ 100)
    (hT : (List.zipWith (fun v w => |v| * w) values weights).sum ≤ 2 ^ 900) :
    ∃ r : ℚ, linearField values weights = .finite r ∧
      |r - Spec.weightedMean values weights| ≤
        ((values.length : ℚ) + 1) / 2 ^ 49 *
          ((List.zipWith (fun v w => |v| * w) values weights).sum / weights.sum) +
        1 / 2 ^ 900 := by
  have hN : (4 * ((2 ^ 20 : ℕ) : ℚ) + 1) * unitRoundoff ≤ 1 := by
    unfold unitRoundoff
    norm_num
  have hlenz : (values.zip weights).length = values.length := by
    rw [List.length_zip, hlen, min_self]
  -- the three sums over the pairs
  have eS : ((values.zip weights).map (fun t => t.1 * t.2)).sum =
      (List.zipWith (fun v w => v * w) values weights).sum :=
    sum_map_zip (fun v w => v * w) _ values weights (fun _ _ _ => rfl)
  have eT : ((values.zip weights).map (fun t => |t.1 * t.2|)).sum =
      (List.zipWith (fun v w => |v| * w) values weights).sum :=
    sum_map_zip (fun v w => |v * w|) _ values weights
      (fun v w hw' => by simp only [abs_mul, abs_of_nonneg (hw w hw')])
  have eW : ((values.zip weights).map (fun t => t.2)).sum = weights.sum := by
    rw [sum_map_zip (fun _ w => w) (fun _ w => w) values weights (fun _ _ _ => rfl),
      sum_zipWith_snd values weights hlen]
  have eW' : ((values.zip weights).map (fun t => |t.2|)).sum = weights.sum := by
    rw [sum_map_zip (fun _ w => |w|) (fun _ w => w) values weights
      (fun _ w hw' => abs_of_nonneg (hw w hw')), sum_zipWith_snd values weights hlen]
  have hW0 : 0 ≤ weights.sum := le_trans (by positivity) hW1
  have hST : |(List.zipWith (fun v w => v * w) values weights).sum| ≤
      (List.zipWith (fun v w => |v| * w) values weights).sum := by
    have h1 : |((values.zip weights).map (fun t => t.1 * t.2)).sum| ≤
        ((values.zip weights).map (fun t => |t.1 * t.2|)).sum :=
      abs_sum_map_le (fun t : ℚ × ℚ => t.1 * t.2) (values.zip weights)
    have h2 : |(List.zipWith (fun v w => v * w) values weights).sum| =
        |((values.zip weights).map (fun t => t.1 * t.2)).sum| := congrArg abs eS.symm
    exact le_trans (le_of_eq h2) (le_trans h1 (le_of_eq eT))
  have hT0 : 0 ≤ (List.zipWith (fun v w => |v| * w) values weights).sum :=
    le_trans (abs_nonneg _) hST
  -- the sum of the products
  have hterm : ∀ t ∈ values.zip weights, ∃ p : ℚ,
      mul (.finite t.1) (.finite t.2) = .finite p ∧
        |p - t.1 * t.2| ≤ unitRoundoff * |t.1 * t.2| + underflowUnit := by
    intro t ht
    apply rnd_error
    have h1 : |t.1 * t.2| ≤ ((values.zip weights).map (fun t => |t.1 * t.2|)).sum := by
      apply List.single_le_sum
      · intro y hy
        obtain ⟨z, _, rfl⟩ := List.mem_map.mp hy
        exact abs_nonneg _
      · exact List.mem_map.mpr ⟨t, ht, rfl⟩
    have h2 := h1.trans_eq eT
    have : (2 : ℚ) ^ 900 ≤ 2 ^ 1023 := by norm_num
    linarith only [h2, hT, this]
  obtain ⟨s, hs, hserr⟩ := foldl_add_error (fun t : ℚ × ℚ => mul (.finite t.1) (.finite t.2))
    (fun t : ℚ × ℚ => t.1 * t.2) (List.zipWith (fun v w => |v| * w) values weights).sum (2 ^ 20) hN hT0
    (le_trans hT (by norm_num)) (values.zip weights) 0 0 0 0 hterm
    (by rw [hlenz]; omega) (by simp) (by rw [zero_add]; exact eT.le) (by simp)
  -- the sum of the weights
  obtain ⟨t, ht, hterr⟩ := foldl_add_error (fun t : ℚ × ℚ => Value.finite t.2)
    (fun t : ℚ × ℚ => t.2) weights.sum (2 ^ 20) hN hW0
    (le_trans hW2 (by norm_num)) (values.zip weights) 0 0 0 0
    (fun t _ => ⟨t.2, rfl, by
      simp only [sub_self, abs_zero]
      exact add_nonneg (mul_nonneg unitRoundoff_pos.le (abs_nonneg _)) underflowUnit_pos.le⟩)
    (by rw [hlenz]; omega) (by simp) (by rw [zero_add]; exact eW'.le) (by simp)
  rw [zero_add, eS, hlenz] at hserr
  rw [zero_add, eW, hlenz] at hterr
  simp only [Nat.zero_add] at hserr hterr
  obtain ⟨r, hr, hrerr⟩ := mul_div_error (values.length : ℚ) _ _ _ s t (Nat.cast_nonneg _)
    (by exact_mod_cast hn) hST hW1 hW2 hT hserr hterr
  refine ⟨r, ?_, hrerr⟩
  unfold linearField
  simp only
  have hpair := foldl_pair (fun s (vw : ℚ × ℚ) => add s (mul (.finite vw.1) (.finite vw.2)))
    (fun s (vw : ℚ × ℚ) => add s (.finite vw.2)) (values.zip weights) (.finite 0) (.finite 0)
  beta_reduce at hpair
  rw [hpair]
  simp only
  rw [hs, ht]
  exact hr

end binary64

namespace vision

namespace HeadBodyParticleGenerator

section Loop

variable {K : Type} [LinearOrderedField K]

/-- The loop adds to each local the sum of the contributions of the pairs it visits. -/
theorem foldl_step (m : CMath K) (l : List (HeadBodyParticle K × K)) (a : Sums K) :
    (l.foldl (Sums.step m) a).sum_x = a.sum_x + (l.map (fun pw => pw.1.x * pw.2)).sum ∧
    (l.foldl (Sums.step m) a).sum_y = a.sum_y + (l.map (fun pw => pw.1.y * pw.2)).sum ∧
    (l.foldl (Sums.step m) a).sum_s = a.sum_s + (l.map (fun pw => pw.1.s * pw.2)).sum ∧
    (l.foldl (Sums.step m) a).sum_weight = a.sum_weight + (l.map (fun pw => pw.2)).sum ∧
    (l.foldl (Sums.step m) a).vec_dh.real = a.vec_dh.real +
      (l.map (fun pw => pw.2 * m.cos (pw.1.dh * (2 * m.M_PI / 8)))).sum ∧
    (l.foldl (Sums.step m) a).vec_dh.imag = a.vec_dh.imag +
      (l.map (fun pw => pw.2 * m.sin (pw.1.dh * (2 * m.M_PI / 8)))).sum ∧
    (l.foldl (Sums.step m) a).vec_db.real = a.vec_db.real +
      (l.map (fun pw => pw.2 * m.cos (pw.1.db * (2 * m.M_PI / 8)))).sum ∧
    (l.foldl (Sums.step m) a).vec_db.imag = a.vec_db.imag +
      (l.map (fun pw => pw.2 * m.sin (pw.1.db * (2 * m.M_PI / 8)))).sum := by
  induction l generalizing a with
  | nil => simp
  | cons pw l ih =>
    have h8 : (8.0 : K) = 8 := by norm_num
    have hd : ∀ v : K, v * 2 * m.M_PI / 8 = v * (2 * m.M_PI / 8) := fun v => by ring
    obtain ⟨h1, h2, h3, h4, h5, h6, h7, h9⟩ := ih (Sums.step m a pw)
    simp only [List.foldl_cons, List.map_cons, List.sum_cons]
    rw [h1, h2, h3, h4, h5, h6, h7, h9]
    simp only [Sums.step, complex.add, h8, hd]
    refine ⟨?_, ?_, ?_, ?_, ?_, ?_, ?_, ?_⟩ <;> ring

omit [LinearOrderedField K] in
theorem map_zip_eq_zipWith (g : HeadBodyParticle K → K) (f : K → K → K)
    (particles : List (HeadBodyParticle K)) (weights : List K) :
    ((particles.zip weights).map (fun pw => f (g pw.1) pw.2)) =
      List.zipWith f (particles.map g) weights := by
  induction particles generalizing weights with
  | nil => simp
  | cons p ps ih =>
    cases weights with
    | nil => simp
    | cons w ws => simp [ih]

omit [LinearOrderedField K] in
theorem map_snd_zip_eq (particles : List (HeadBodyParticle K)) (weights : List K)
    (h : particles.length = weights.length) :
    ((particles.zip weights).map (fun pw => pw.2)) = weights := by
  induction particles generalizing weights with
  | nil => cases weights with
    | nil => rfl
    | cons w ws => simp at h
  | cons p ps ih =>
    cases weights with
    | nil => simp at h
    | cons w ws => simp at h; simp [ih ws h]

/-- The locals after the loop, in the quantities the specification names. -/
theorem accumulate_eq (m : CMath K) (particles : List (HeadBodyParticle K)) (weights : List K)
    (h : particles.length = weights.length) :
    (accumulate m particles weights).sum_x =
      (List.zipWith (fun v w => v * w) (particles.map (fun p => p.x)) weights).sum ∧
    (accumulate m particles weights).sum_y =
      (List.zipWith (fun v w => v * w) (particles.map (fun p => p.y)) weights).sum ∧
    (accumulate m particles weights).sum_s =
      (List.zipWith (fun v w => v * w) (particles.map (fun p => p.s)) weights).sum ∧
    (accumulate m particles weights).sum_weight = weights.sum ∧
    (accumulate m particles weights).vec_dh.real =
      (Spec.directionVector m (particles.map (fun p => p.dh)) weights).1 ∧
    (accumulate m particles weights).vec_dh.imag =
      (Spec.directionVector m (particles.map (fun p => p.dh)) weights).2 ∧
    (accumulate m particles weights).vec_db.real =
      (Spec.directionVector m (particles.map (fun p => p.db)) weights).1 ∧
    (accumulate m particles weights).vec_db.imag =
      (Spec.directionVector m (particles.map (fun p => p.db)) weights).2 := by
  obtain ⟨h1, h2, h3, h4, h5, h6, h7, h8⟩ := foldl_step m (particles.zip weights) Sums.init
  have z : (0.0 : K) = 0 := by norm_num
  unfold accumulate
  rw [h1, h2, h3, h4, h5, h6, h7, h8]
  simp only [Sums.init, z, zero_add, Spec.directionVector]
  refine ⟨?_, ?_, ?_, ?_, ?_, ?_, ?_, ?_⟩
  · exact congrArg List.sum (map_zip_eq_zipWith (fun p => p.x) (fun v w => v * w) particles weights)
  · exact congrArg List.sum (map_zip_eq_zipWith (fun p => p.y) (fun v w => v * w) particles weights)
  · exact congrArg List.sum (map_zip_eq_zipWith (fun p => p.s) (fun v w => v * w) particles weights)
  · exact congrArg List.sum (map_snd_zip_eq particles weights h)
  · exact congrArg List.sum (map_zip_eq_zipWith (fun p => p.dh)
      (fun v w => w * m.cos (v * (2 * m.M_PI / 8))) particles weights)
  · exact congrArg List.sum (map_zip_eq_zipWith (fun p => p.dh)
      (fun v w => w * m.sin (v * (2 * m.M_PI / 8))) particles weights)
  · exact congrArg List.sum (map_zip_eq_zipWith (fun p => p.db)
      (fun v w => w * m.cos (v * (2 * m.M_PI / 8))) particles weights)
  · exact congrArg List.sum (map_zip_eq_zipWith (fun p => p.db)
      (fun v w => w * m.sin (v * (2 * m.M_PI / 8))) particles weights)

/-- The squared magnitudes `std::norm` of the two accumulated vectors. -/
theorem accumulate_norm (m : CMath K) (particles : List (HeadBodyParticle K)) (weights : List K)
    (h : particles.length = weights.length) :
    (accumulate m particles weights).vec_dh.norm =
      Spec.squaredMagnitude (Spec.directionVector m (particles.map (fun p => p.dh)) weights) ∧
    (accumulate m particles weights).vec_db.norm =
      Spec.squaredMagnitude (Spec.directionVector m (particles.map (fun p => p.db)) weights) := by
  obtain ⟨-, -, -, -, h5, h6, h7, h8⟩ := accumulate_eq m particles weights h
  simp only [complex.norm, Spec.squaredMagnitude, h5, h6, h7, h8]
  constructor <;> ring

/-- The quotient a linear field of `mean_particle` is set to. -/
theorem scale_denominator (sum sum_weight : K) :
    scale sum (denominator sum_weight) = if sum_weight = 0 then none else some (sum / sum_weight) := by
  unfold scale denominator
  split_ifs with h
  · rfl
  · simp only [Option.map_some']
    congr 1
    rw [show (1.0 : K) = 1 by norm_num, mul_one_div]

/-- The method on two sequences of the same length, in the quantities the
specification names. -/
theorem GetWeightedMean_eq (m : CMath K) (particles : List (HeadBodyParticle K)) (weights : List K)
    (mean_particle : HeadBodyParticle (Dbl K)) (h : particles.length = weights.length) :
    GetWeightedMean m particles weights mean_particle =
      if Spec.squaredMagnitude (Spec.directionVector m (particles.map (fun p => p.dh)) weights)
          ≤ 1e-10 then
        (.error (.runtime_error "Failed to calculate head direction average."),
          linearFieldsSet particles weights mean_particle)
      else if Spec.squaredMagnitude (Spec.directionVector m (particles.map (fun p => p.db)) weights)
          ≤ 1e-10 then
        (.error (.runtime_error "Failed to calculate body direction average."),
          linearFieldsSet particles weights mean_particle)
      else
        (.ok (),
          { linearFieldsSet particles weights mean_particle with
            dh := some (Spec.circularMean m (particles.map (fun p => p.dh)) weights)
            db := some (Spec.circularMean m (particles.map (fun p => p.db)) weights) }) := by
  obtain ⟨h1, h2, h3, h4, h5, h6, h7, h8⟩ := accumulate_eq m particles weights h
  obtain ⟨n1, n2⟩ := accumulate_norm m particles weights h
  have e8 : (8.0 : K) = 8 := by norm_num
  have e2 : (2.0 : K) = 2 := by norm_num
  unfold GetWeightedMean
  simp only [h, ne_eq, not_true_eq_false, if_false, n1, n2, scale_denominator, h1, h2, h3, h4,
    complex.arg, h5, h6, h7, h8, HeadBodyParticle.set_x, HeadBodyParticle.set_y,
    HeadBodyParticle.set_s, HeadBodyParticle.set_dh, HeadBodyParticle.set_db, e8, e2, div_div,
    Spec.circularMean, Spec.weightedMean, linearFieldsSet]

end Loop

/-! ## Propagation: `Generate` -/

/-- C1: for every generator state, source particle and destination particle,
`Generate` leaves in each of the five fields of the destination the field of the
source plus the one next sample of that dimension's own sampler, whatever the
destination held before; the call consumes exactly one draw of each of the five
samplers. -/
theorem Generate_adds_one_draw_per_dimension (g : HeadBodyParticleGenerator ℝ)
    (src dst : HeadBodyParticle ℝ) :
    (Generate g src dst).1 =
      { x := src.x + g.rand_x_.draw.1
        y := src.y + g.rand_y_.draw.1
        s := src.s + g.rand_s_.draw.1
        dh := src.dh + g.rand_dh_.draw.1
        db := src.db + g.rand_db_.draw.1 } ∧
    (Generate g src dst).2 =
      { rand_x_ := g.rand_x_.draw.2
        rand_y_ := g.rand_y_.draw.2
        rand_s_ := g.rand_s_.draw.2
        rand_dh_ := g.rand_dh_.draw.2
        rand_db_ := g.rand_db_.draw.2 } ∧
    (Generate g src dst).2.rand_x_.drawn = g.rand_x_.drawn + 1 ∧
    (Generate g src dst).2.rand_y_.drawn = g.rand_y_.drawn + 1 ∧
    (Generate g src dst).2.rand_s_.drawn = g.rand_s_.drawn + 1 ∧
    (Generate g src dst).2.rand_dh_.drawn = g.rand_dh_.drawn + 1 ∧
    (Generate g src dst).2.rand_db_.drawn = g.rand_db_.drawn + 1 :=
  ⟨rfl, rfl, rfl, rfl, rfl, rfl, rfl⟩

/-! ## Estimation: `GetWeightedMean` -/

/-- C2, as the code has it: the linear fields are computed in binary64 as
`sum * (1.0 / sum_weight)`, and every operation rounds.  One particle with `x = 1` and
the weight 49 (on which the call succeeds): the quotient `1.0 / 49` is rounded, the
product with 49 is `1 - 2⁻⁵³`, which is not the weighted mean 1.  Two particles with
`x = 2¹⁰²³` and the weights 1 and 1: the sum of the products overflows, and the result
is an infinity, while the weighted mean is `2¹⁰²³`. -/
theorem GetWeightedMean_linear_mean_rounded :
    (GetWeightedMean cmath64 [⟨1, 0, 0, 0, 0⟩] [49] ⟨none, none, none, none, none⟩).1 = .ok () ∧
    binary64.linearField [1] [49] = .finite (9007199254740991 / 9007199254740992) ∧
    binary64.linearField [1] [49] ≠ .finite (Spec.weightedMean [1] [49]) ∧
    binary64.linearField [2 ^ 1023, 2 ^ 1023] [1, 1] = .infinite false ∧
    Spec.weightedMean [(2 : ℚ) ^ 1023, 2 ^ 1023] [1, 1] = 2 ^ 1023 := by
  have h1 : binary64.linearField [1] [49] =
      .finite (9007199254740991 / 9007199254740992) := by decide!
  refine ⟨?_, h1, ?_, by decide!, by norm_num [Spec.weightedMean]⟩
  · rw [GetWeightedMean_eq _ _ _ _ rfl]
    norm_num [Spec.directionVector, Spec.squaredMagnitude, cmath64]
  · rw [h1]
    norm_num [Spec.weightedMean]

/-- C2, amended: the fields `x`, `y` and `s` of the mean are computed in binary64 as
`(Σ value_i · weight_i) · (1.0 / Σ weight_i)`, every operation rounded, and are the
weighted arithmetic mean up to rounding: for at most `2²⁰` particles, weights that are
not negative with a sum `W` between `2⁻¹⁰⁰` and `2¹⁰⁰`, and values with
`Σ |value_i| · weight_i ≤ 2⁹⁰⁰`, the field is finite and differs from the weighted mean
by at most `(n + 1) · 2⁻⁴⁹ · Σ |value_i| · weight_i / W + 2⁻⁹⁰⁰`.  For two particles
with `x = 0` and `x = 10` the result is exact: the mean `x` is 5 under the weights 1
and 1, and 2.5 under the weights 3 and 1, in binary64 as in exact arithmetic. -/
theorem GetWeightedMean_linear_mean :
    (∀ values weights : List ℚ, values.length = weights.length → values.length ≤ 2 ^ 20 →
      (∀ w ∈ weights, 0 ≤ w) → 1 / 2 ^ 100 ≤ weights.sum → weights.sum ≤ 2 ^ 100 →
      (List.zipWith (fun v w => |v| * w) values weights).sum ≤ 2 ^ 900 →
      ∃ r : ℚ, binary64.linearField values weights = .finite r ∧
        |r - Spec.weightedMean values weights| ≤
          ((values.length : ℚ) + 1) / 2 ^ 49 *
            ((List.zipWith (fun v w => |v| * w) values weights).sum / weights.sum) +
          1 / 2 ^ 900) ∧
    binary64.linearField [0, 10] [1, 1] = .finite 5 ∧
    binary64.linearField [0, 10] [3, 1] = .finite (5 / 2) ∧
    (∀ (m : CMath ℝ) (p q : HeadBodyParticle ℝ) (mean_particle : HeadBodyParticle (Dbl ℝ)),
      p.x = 0 → q.x = 10 →
      (GetWeightedMean m [p, q] [1, 1] mean_particle).2.x = some 5 ∧
      (GetWeightedMean m [p, q] [3, 1] mean_particle).2.x = some 2.5) := by
  refine ⟨binary64.linearField_error, by decide!, by decide!, ?_⟩
  intro m p q mean_particle hp hq
  constructor
  · rw [GetWeightedMean_eq m [p, q] [1, 1] mean_particle rfl]
    split_ifs <;> norm_num [linearFieldsSet, Spec.weightedMean, hp, hq]
  · rw [GetWeightedMean_eq m [p, q] [3, 1] mean_particle rfl]
    split_ifs <;> norm_num [linearFieldsSet, Spec.weightedMean, hp, hq]

/-- One particle with `x = 1` and the weight 49: the field is finite and within
`2 · 2⁻⁴⁹ + 2⁻⁹⁰⁰` of the weighted mean; and two particles at `x = 0` and `x = 10`. -/
theorem GetWeightedMean_linear_mean_witness :
    (∃ r : ℚ, binary64.linearField [1] [49] = .finite r ∧
      |r - Spec.weightedMean [1] [49]| ≤
        ((([1] : List ℚ).length : ℚ) + 1) / 2 ^ 49 *
          ((List.zipWith (fun v w => |v| * w) [1] [49]).sum / ([49] : List ℚ).sum) +
        1 / 2 ^ 900) ∧
    (GetWeightedMean cmath64 [⟨0, 0, 0, 0, 0⟩, ⟨10, 0, 0, 0, 0⟩] [1, 1]
        ⟨none, none, none, none, none⟩).2.x = some 5 ∧
    (GetWeightedMean cmath64 [⟨0, 0, 0, 0, 0⟩, ⟨10, 0, 0, 0, 0⟩] [3, 1]
        ⟨none, none, none, none, none⟩).2.x = some 2.5 :=
  ⟨GetWeightedMean_linear_mean.1 [1] [49] rfl (by norm_num) (by simp) (by norm_num)
      (by norm_num) (by norm_num),
    GetWeightedMean_linear_mean.2.2.2 cmath64 ⟨0, 0, 0, 0, 0⟩ ⟨10, 0, 0, 0, 0⟩
      ⟨none, none, none, none, none⟩ rfl rfl⟩

/-- C3: on equal-length sequences on which `GetWeightedMean` succeeds, the field `dh`
of the mean is `atan2(V.y, V.x) · 8 / (2π)` for the accumulated vector
`V = Σ (weight_i·cos(dh_i·2π/8), weight_i·sin(dh_i·2π/8))`, and the field `db` is the
same expression of the `db` values. -/
theorem GetWeightedMean_circular_mean (particles : List (HeadBodyParticle ℝ)) (weights : List ℝ)
    (mean_particle : HeadBodyParticle (Dbl ℝ)) (h : particles.length = weights.length)
    (hok : (GetWeightedMean cmath particles weights mean_particle).1 = .ok ()) :
    (GetWeightedMean cmath particles weights mean_particle).2.dh =
      some (atan2 (Spec.directionVector cmath (particles.map (fun p => p.dh)) weights).2
        (Spec.directionVector cmath (particles.map (fun p => p.dh)) weights).1 * 8 / (2 * Real.pi)) ∧
    (GetWeightedMean cmath particles weights mean_particle).2.db =
      some (atan2 (Spec.directionVector cmath (particles.map (fun p => p.db)) weights).2
        (Spec.directionVector cmath (particles.map (fun p => p.db)) weights).1 * 8 / (2 * Real.pi)) := by
  rw [GetWeightedMean_eq cmath particles weights mean_particle h] at hok ⊢
  split_ifs at hok ⊢
  exact ⟨rfl, rfl⟩

/-- Two particles that face direction 0: the call succeeds and the mean directions are
the circular means. -/
theorem GetWeightedMean_circular_mean_witness :
    (GetWeightedMean cmath [⟨0, 0, 0, 0, 0⟩, ⟨10, 0, 0, 0, 0⟩] [3, 1]
        ⟨none, none, none, none, none⟩).1 = .ok () ∧
    (GetWeightedMean cmath [⟨0, 0, 0, 0, 0⟩, ⟨10, 0, 0, 0, 0⟩] [3, 1]
        ⟨none, none, none, none, none⟩).2.dh =
      some (atan2 (Spec.directionVector cmath [0, 0] [3, 1]).2
        (Spec.directionVector cmath [0, 0] [3, 1]).1 * 8 / (2 * Real.pi)) :=
  have hok : (GetWeightedMean cmath [⟨0, 0, 0, 0, 0⟩, ⟨10, 0, 0, 0, 0⟩] [3, 1]
      ⟨none, none, none, none, none⟩).1 = .ok () := by
    rw [GetWeightedMean_eq _ _ _ _ rfl]
    norm_num [Spec.directionVector, Spec.squaredMagnitude, cmath]
  ⟨hok, (GetWeightedMean_circular_mean _ _ _ rfl hok).1⟩

/-- C4: on equal-length sequences, `GetWeightedMean` raises the head-direction error
exactly when the squared magnitude of the accumulated head vector is at most `1e-10`;
it raises the body-direction error exactly when that of the head vector is above
`1e-10` and that of the body vector is at most `1e-10`; it succeeds exactly when both
are above `1e-10`. -/
theorem GetWeightedMean_outcome (particles : List (HeadBodyParticle ℝ)) (weights : List ℝ)
    (mean_particle : HeadBodyParticle (Dbl ℝ)) (h : particles.length = weights.length) :
    ((GetWeightedMean cmath particles weights mean_particle).1 =
        .error (.runtime_error "Failed to calculate head direction average.") ↔
      Spec.squaredMagnitude (Spec.directionVector cmath (particles.map (fun p => p.dh)) weights)
        ≤ 1e-10) ∧
    ((GetWeightedMean cmath particles weights mean_particle).1 =
        .error (.runtime_error "Failed to calculate body direction average.") ↔
      1e-10 < Spec.squaredMagnitude
          (Spec.directionVector cmath (particles.map (fun p => p.dh)) weights) ∧
      Spec.squaredMagnitude (Spec.directionVector cmath (particles.map (fun p => p.db)) weights)
        ≤ 1e-10) ∧
    ((GetWeightedMean cmath particles weights mean_particle).1 = .ok () ↔
      1e-10 < Spec.squaredMagnitude
          (Spec.directionVector cmath (particles.map (fun p => p.dh)) weights) ∧
      1e-10 < Spec.squaredMagnitude
          (Spec.directionVector cmath (particles.map (fun p => p.db)) weights)) := by
  rw [GetWeightedMean_eq cmath particles weights mean_particle h]
  split_ifs with h1 h2
  · simp [h1, not_lt.mpr h1]
  · simp [h1, h2, not_le.mp h1, not_lt.mpr h2]
  · simp [h1, h2, not_le.mp h1, not_le.mp h2]

/-- One particle of weight 1: the sequences have the same length, and the call
succeeds as both squared magnitudes are 1. -/
theorem GetWeightedMean_outcome_witness :
    ([(⟨0, 0, 0, 0, 0⟩ : HeadBodyParticle ℝ)].length = [(1 : ℝ)].length) ∧
    ((GetWeightedMean cmath [⟨0, 0, 0, 0, 0⟩] [1] ⟨none, none, none, none, none⟩).1 = .ok () ↔
      1e-10 < Spec.squaredMagnitude (Spec.directionVector cmath [0] [1]) ∧
      1e-10 < Spec.squaredMagnitude (Spec.directionVector cmath [0] [1])) :=
  ⟨rfl, (GetWeightedMean_outcome [⟨0, 0, 0, 0, 0⟩] [1] ⟨none, none, none, none, none⟩ rfl).2.2⟩

/-! ### A population of equal weights -/

theorem zipWith_replicate_length (f : ℝ → ℝ → ℝ) (values : List ℝ) (w : ℝ) :
    List.zipWith f values (List.replicate values.length w) = values.map (fun v => f v w) := by
  induction values with
  | nil => rfl
  | cons v vs ih => simp [List.replicate_succ, ih]

/-! ### A population that shares one direction -/

/-- The squared magnitude of a vector in polar form. -/
theorem squaredMagnitude_polar (r θ : ℝ) :
    Spec.squaredMagnitude (r * Real.cos θ, r * Real.sin θ) = r ^ 2 := by
  unfold Spec.squaredMagnitude
  have := Real.sin_sq_add_cos_sq θ
  simp only
  nlinarith [this]

/-- Non-negative weights that sum to zero accumulate the zero vector. -/
theorem directionVector_zero_sum (values weights : List ℝ) (hw : ∀ w ∈ weights, 0 ≤ w)
    (hsum : weights.sum = 0) : Spec.directionVector cmath values weights = (0, 0) := by
  induction weights generalizing values with
  | nil => simp [Spec.directionVector]
  | cons w ws ih =>
    have h0 : 0 ≤ w := hw w (List.mem_cons_self w ws)
    have hws : ∀ t ∈ ws, 0 ≤ t := fun t ht => hw t (List.mem_cons_of_mem w ht)
    have hs : 0 ≤ ws.sum := List.sum_nonneg hws
    rw [List.sum_cons] at hsum
    have hw0 : w = 0 := by linarith
    have hs0 : ws.sum = 0 := by linarith
    cases values with
    | nil => simp [Spec.directionVector]
    | cons v vs =>
      have ih2 := ih vs hws hs0
      simp only [Spec.directionVector, Prod.mk.injEq] at ih2 ⊢
      simp only [List.zipWith_cons_cons, List.sum_cons, ih2.1, ih2.2, hw0]
      constructor <;> ring

/-- The accumulated vector of the directions 0 and 4 with the weights 1 and -1. -/
theorem directionVector_zero_four :
    Spec.directionVector cmath [0, 4] [1, -1] = (2, 0) := by
  have e4 : (4 : ℝ) * (2 * Real.pi / 8) = Real.pi := by ring
  simp only [Spec.directionVector, cmath, List.zipWith_cons_cons, List.zipWith_nil_right,
    List.sum_cons, List.sum_nil, zero_mul, Real.cos_zero, Real.sin_zero, e4, Real.cos_pi,
    Real.sin_pi, Prod.mk.injEq]
  constructor <;> norm_num

/-- C7, as the code has it: an empty population, and a population whose one weight is
0, are not rejected by a precondition check of their own: the call ends in the
head-direction averaging error.  A zero weight sum as such is not detected either:
with the weights 1 and -1 on two opposite directions the call returns, and the mean
`x` it has set is not a finite number. -/
theorem GetWeightedMean_empty_population :
    (GetWeightedMean cmath [] [] ⟨none, none, none, none, none⟩).1 =
      .error (.runtime_error "Failed to calculate head direction average.") ∧
    (GetWeightedMean cmath [⟨1, 2, 3, 0, 0⟩] [0] ⟨none, none, none, none, none⟩).1 =
      .error (.runtime_error "Failed to calculate head direction average.") ∧
    (GetWeightedMean cmath [⟨1, 0, 0, 0, 0⟩, ⟨0, 0, 0, 4, 4⟩] [1, -1]
        ⟨some 7, some 7, some 7, some 7, some 7⟩).1 = .ok () ∧
    (GetWeightedMean cmath [⟨1, 0, 0, 0, 0⟩, ⟨0, 0, 0, 4, 4⟩] [1, -1]
        ⟨some 7, some 7, some 7, some 7, some 7⟩).2.x = none := by
  refine ⟨?_, ?_, ?_, ?_⟩
  · rw [GetWeightedMean_eq cmath _ _ _ rfl]
    norm_num [Spec.directionVector, Spec.squaredMagnitude]
  · rw [GetWeightedMean_eq cmath _ _ _ rfl]
    norm_num [Spec.directionVector, Spec.squaredMagnitude]
  · rw [GetWeightedMean_eq cmath _ _ _ rfl]
    simp only [List.map_cons, List.map_nil]
    rw [directionVector_zero_four]
    norm_num [Spec.squaredMagnitude]
  · rw [GetWeightedMean_eq cmath _ _ _ rfl]
    simp only [List.map_cons, List.map_nil]
    rw [directionVector_zero_four]
    norm_num [Spec.squaredMagnitude, linearFieldsSet]

/-- C7, amended: `GetWeightedMean` called with sequences of different lengths fails its
assertion, which is neither of the two averaging errors, and leaves `mean_particle` as
it was; called with an empty population, or with sequences of the same length whose
non-negative weights sum to 0, it raises the head-direction averaging error and sets
neither `dh` nor `db` of `mean_particle`. -/
theorem GetWeightedMean_precondition (particles : List (HeadBodyParticle ℝ)) (weights : List ℝ)
    (mean_particle : HeadBodyParticle (Dbl ℝ)) :
    (particles.length ≠ weights.length →
      GetWeightedMean cmath particles weights mean_particle =
        (.error .assertion_failure, mean_particle) ∧
      ∀ what : String, Raised.assertion_failure ≠ Raised.runtime_error what) ∧
    ((GetWeightedMean cmath [] [] mean_particle).1 =
      .error (.runtime_error "Failed to calculate head direction average.")) ∧
    (particles.length = weights.length → (∀ w ∈ weights, 0 ≤ w) → weights.sum = 0 →
      (GetWeightedMean cmath particles weights mean_particle).1 =
        .error (.runtime_error "Failed to calculate head direction average.") ∧
      (GetWeightedMean cmath particles weights mean_particle).2.dh = mean_particle.dh ∧
      (GetWeightedMean cmath particles weights mean_particle).2.db = mean_particle.db) := by
  refine ⟨?_, ?_, ?_⟩
  · intro h
    refine ⟨?_, fun what hw => by cases hw⟩
    unfold GetWeightedMean
    rw [if_pos h]
  · rw [GetWeightedMean_eq cmath _ _ _ rfl]
    norm_num [Spec.directionVector, Spec.squaredMagnitude]
  · intro h hw hsum
    rw [GetWeightedMean_eq cmath particles weights mean_particle h,
      directionVector_zero_sum _ weights hw hsum]
    norm_num [Spec.squaredMagnitude, linearFieldsSet]

/-- Two particles with one weight, and one particle of weight 0. -/
theorem GetWeightedMean_precondition_witness :
    GetWeightedMean cmath [⟨1, 2, 3, 0, 0⟩, ⟨1, 2, 3, 1, 0⟩] [1] ⟨none, none, none, none, none⟩ =
      (.error .assertion_failure, ⟨none, none, none, none, none⟩) ∧
    (GetWeightedMean cmath [⟨1, 2, 3, 0, 0⟩] [0] ⟨none, none, none, some 5, none⟩).2.dh = some 5 :=
  ⟨((GetWeightedMean_precondition [⟨1, 2, 3, 0, 0⟩, ⟨1, 2, 3, 1, 0⟩] [1]
      ⟨none, none, none, none, none⟩).1 (by simp)).1,
   ((GetWeightedMean_precondition [⟨1, 2, 3, 0, 0⟩] [0]
      ⟨none, none, none, some 5, none⟩).2.2 rfl (by simp) (by simp)).2.1⟩

/-! ### Samplers without noise -/

/-- A sampler with mean 0 and standard deviation 0 draws 0 and stays such a sampler. -/
theorem draw_of_sigma_zero (r : RandNumMaker ℝ) (h : r.mean = 0 ∧ r.sigma = 0) :
    r.draw.1 = 0 ∧ (r.draw.2.mean = 0 ∧ r.draw.2.sigma = 0) := by
  simp [RandNumMaker.draw, h.1, h.2]

/-- A generator whose five samplers have mean 0 and standard deviation 0 copies the
source particle and stays such a generator. -/
theorem Generate_of_sigma_zero (g : HeadBodyParticleGenerator ℝ)
    (src dst : HeadBodyParticle ℝ)
    (hx : g.rand_x_.mean = 0 ∧ g.rand_x_.sigma = 0)
    (hy : g.rand_y_.mean = 0 ∧ g.rand_y_.sigma = 0)
    (hs : g.rand_s_.mean = 0 ∧ g.rand_s_.sigma = 0)
    (hdh : g.rand_dh_.mean = 0 ∧ g.rand_dh_.sigma = 0)
    (hdb : g.rand_db_.mean = 0 ∧ g.rand_db_.sigma = 0) :
    (Generate g src dst).1 = src ∧
    ((Generate g src dst).2.rand_x_.mean = 0 ∧ (Generate g src dst).2.rand_x_.sigma = 0) ∧
    ((Generate g src dst).2.rand_y_.mean = 0 ∧ (Generate g src dst).2.rand_y_.sigma = 0) ∧
    ((Generate g src dst).2.rand_s_.mean = 0 ∧ (Generate g src dst).2.rand_s_.sigma = 0) ∧
    ((Generate g src dst).2.rand_dh_.mean = 0 ∧ (Generate g src dst).2.rand_dh_.sigma = 0) ∧
    ((Generate g src dst).2.rand_db_.mean = 0 ∧ (Generate g src dst).2.rand_db_.sigma = 0) := by
  obtain ⟨dx, kx⟩ := draw_of_sigma_zero _ hx
  obtain ⟨dy, ky⟩ := draw_of_sigma_zero _ hy
  obtain ⟨ds, ks⟩ := draw_of_sigma_zero _ hs
  obtain ⟨ddh, kdh⟩ := draw_of_sigma_zero _ hdh
  obtain ⟨ddb, kdb⟩ := draw_of_sigma_zero _ hdb
  refine ⟨?_, kx, ky, ks, kdh, kdb⟩
  simp only [Generate, HeadBodyParticle.set_x, HeadBodyParticle.set_y, HeadBodyParticle.set_s,
    HeadBodyParticle.set_dh, HeadBodyParticle.set_db, dx, dy, ds, ddh, ddb, add_zero]

/-- The samplers of a generator keep mean 0 and standard deviation 0 over any sequence
of calls of `Generate`. -/
theorem foldl_Generate_of_sigma_zero (earlier : List (HeadBodyParticle ℝ × HeadBodyParticle ℝ))
    (g : HeadBodyParticleGenerator ℝ)
    (hx : g.rand_x_.mean = 0 ∧ g.rand_x_.sigma = 0)
    (hy : g.rand_y_.mean = 0 ∧ g.rand_y_.sigma = 0)
    (hs : g.rand_s_.mean = 0 ∧ g.rand_s_.sigma = 0)
    (hdh : g.rand_dh_.mean = 0 ∧ g.rand_dh_.sigma = 0)
    (hdb : g.rand_db_.mean = 0 ∧ g.rand_db_.sigma = 0)
    (src dst : HeadBodyParticle ℝ) :
    (Generate (earlier.foldl (fun g c => (Generate g c.1 c.2).2) g) src dst).1 = src := by
  induction earlier generalizing g with
  | nil => exact (Generate_of_sigma_zero g src dst hx hy hs hdh hdb).1
  | cons c cs ih =>
    obtain ⟨-, kx, ky, ks, kdh, kdb⟩ := Generate_of_sigma_zero g c.1 c.2 hx hy hs hdh hdb
    exact ih _ kx ky ks kdh kdb

/-- The generator that the constructor yields for standard deviations none of which
is negative. -/
theorem construct_ok (e : Entropy ℝ) (sigma_x sigma_y sigma_s sigma_dh sigma_db : ℝ)
    (hx : 0 ≤ sigma_x) (hy : 0 ≤ sigma_y) (hs : 0 ≤ sigma_s) (hdh : 0 ≤ sigma_dh)
    (hdb : 0 ≤ sigma_db) :
    construct e sigma_x sigma_y sigma_s sigma_dh sigma_db =
      .ok { rand_x_ := ⟨0, sigma_x, e.variates (e.seeder 0), 0⟩
            rand_y_ := ⟨0, sigma_y, e.variates (e.seeder 1), 0⟩
            rand_s_ := ⟨0, sigma_s, e.variates (e.seeder 2), 0⟩
            rand_dh_ := ⟨0, sigma_dh, e.variates (e.seeder 3), 0⟩
            rand_db_ := ⟨0, sigma_db, e.variates (e.seeder 4), 0⟩ } := by
  simp [construct, RandNumMaker.create, RandNumMaker.Seed, not_lt.mpr hx, not_lt.mpr hy,
    not_lt.mpr hs, not_lt.mpr hdh, not_lt.mpr hdb]

/-- C8: for a generator constructed with all five standard deviations equal to 0, after
any sequence of earlier calls of `Generate`, and for every source particle `src`,
`Generate( src, dst )` leaves every field of `dst` equal to the field of `src`. -/
theorem Generate_zero_sigma (e : Entropy ℝ) (g : HeadBodyParticleGenerator ℝ)
    (hg : construct e 0 0 0 0 0 = .ok g)
    (earlier : List (HeadBodyParticle ℝ × HeadBodyParticle ℝ))
    (src dst : HeadBodyParticle ℝ) :
    (Generate (earlier.foldl (fun g c => (Generate g c.1 c.2).2) g) src dst).1 = src := by
  rw [construct_ok e 0 0 0 0 0 le_rfl le_rfl le_rfl le_rfl le_rfl] at hg
  injection hg with hg
  subst hg
  exact foldl_Generate_of_sigma_zero earlier _ ⟨rfl, rfl⟩ ⟨rfl, rfl⟩ ⟨rfl, rfl⟩ ⟨rfl, rfl⟩
    ⟨rfl, rfl⟩ src dst

/-- A generator constructed with all standard deviations 0 whose engines would yield
the variate 1 throughout: after one earlier call, the particle is copied. -/
theorem Generate_zero_sigma_witness :
    construct (⟨fun _ => 1, fun _ _ => 1, fun k => (k : ℤ)⟩ : Entropy ℝ) 0 0 0 0 0 =
      .ok { rand_x_ := ⟨0, 0, fun _ => 1, 0⟩
            rand_y_ := ⟨0, 0, fun _ => 1, 0⟩
            rand_s_ := ⟨0, 0, fun _ => 1, 0⟩
            rand_dh_ := ⟨0, 0, fun _ => 1, 0⟩
            rand_db_ := ⟨0, 0, fun _ => 1, 0⟩ } ∧
    (Generate
      ([((⟨1, 1, 1, 1, 1⟩ : HeadBodyParticle ℝ), (⟨0, 0, 0, 0, 0⟩ : HeadBodyParticle ℝ))].foldl
        (fun g c => (Generate g c.1 c.2).2)
        ({ rand_x_ := ⟨0, 0, fun _ => 1, 0⟩
           rand_y_ := ⟨0, 0, fun _ => 1, 0⟩
           rand_s_ := ⟨0, 0, fun _ => 1, 0⟩
           rand_dh_ := ⟨0, 0, fun _ => 1, 0⟩
           rand_db_ := ⟨0, 0, fun _ => 1, 0⟩ } : HeadBodyParticleGenerator ℝ))
      ⟨3, 4, 5, 6, 7⟩ ⟨0, 0, 0, 0, 0⟩).1 = ⟨3, 4, 5, 6, 7⟩ :=
  have hg := construct_ok (⟨fun _ => 1, fun _ _ => 1, fun k => (k : ℤ)⟩ : Entropy ℝ) 0 0 0 0 0
    le_rfl le_rfl le_rfl le_rfl le_rfl
  ⟨hg, Generate_zero_sigma _ _ hg _ _ _⟩

/-! ### Wraparound -/

/-- C10: constructing a `HeadBodyParticleGenerator` with any of the five standard
deviations strictly negative is rejected with the configuration error: the
constructor yields no generator. -/
theorem construct_rejects_negative_sigma (e : Entropy ℝ)
    (sigma_x sigma_y sigma_s sigma_dh sigma_db : ℝ)
    (h : sigma_x < 0 ∨ sigma_y < 0 ∨ sigma_s < 0 ∨ sigma_dh < 0 ∨ sigma_db < 0) :
    construct e sigma_x sigma_y sigma_s sigma_dh sigma_db = .error .negative_sigma ∧
    ∀ g, construct e sigma_x sigma_y sigma_s sigma_dh sigma_db ≠ .ok g := by
  have herr : construct e sigma_x sigma_y sigma_s sigma_dh sigma_db = .error .negative_sigma := by
    unfold construct RandNumMaker.create
    by_cases hx : sigma_x < 0
    · simp [hx]
    by_cases hy : sigma_y < 0
    · simp [hx, hy]
    by_cases hs : sigma_s < 0
    · simp [hx, hy, hs]
    by_cases hdh : sigma_dh < 0
    · simp [hx, hy, hs, hdh]
    have hdb : sigma_db < 0 := by tauto
    simp [hx, hy, hs, hdh, hdb]
  refine ⟨herr, fun g hg => ?_⟩
  rw [herr] at hg
  cases hg

/-- A negative standard deviation of the body direction only. -/
theorem construct_rejects_negative_sigma_witness :
    construct (⟨fun _ => 1, fun _ _ => 1, fun k => (k : ℤ)⟩ : Entropy ℝ) 1 1 1 1 (-1) =
      .error .negative_sigma :=
  (construct_rejects_negative_sigma (⟨fun _ => 1, fun _ _ => 1, fun k => (k : ℤ)⟩ : Entropy ℝ)
    1 1 1 1 (-1) (by norm_num)).1

/-! ### Order of the population -/

/-- Two values of the locals with the same eight components are the same. -/
theorem Sums_eq_of_components {K : Type} (a b : Sums K) (h1 : a.sum_x = b.sum_x)
    (h2 : a.sum_y = b.sum_y) (h3 : a.sum_s = b.sum_s) (h4 : a.sum_weight = b.sum_weight)
    (h5 : a.vec_dh.real = b.vec_dh.real) (h6 : a.vec_dh.imag = b.vec_dh.imag)
    (h7 : a.vec_db.real = b.vec_db.real) (h8 : a.vec_db.imag = b.vec_db.imag) : a = b := by
  obtain ⟨ax, ay, as, aw, ⟨ahr, ahi⟩, ⟨abr, abi⟩⟩ := a
  obtain ⟨bx, by_, bs, bw, ⟨bhr, bhi⟩, ⟨bbr, bbi⟩⟩ := b
  simp only at h1 h2 h3 h4 h5 h6 h7 h8
  subst h1 h2 h3 h4 h5 h6 h7 h8
  rfl

/-- The loop ends with the same locals on a list of pairs and on a permutation of it. -/
theorem foldl_step_perm (l l' : List (HeadBodyParticle ℝ × ℝ)) (h : l.Perm l') (a : Sums ℝ) :
    l.foldl (Sums.step cmath) a = l'.foldl (Sums.step cmath) a := by
  obtain ⟨h1, h2, h3, h4, h5, h6, h7, h8⟩ := foldl_step cmath l a
  obtain ⟨k1, k2, k3, k4, k5, k6, k7, k8⟩ := foldl_step cmath l' a
  apply Sums_eq_of_components
  · rw [h1, k1, (h.map _).sum_eq]
  · rw [h2, k2, (h.map _).sum_eq]
  · rw [h3, k3, (h.map _).sum_eq]
  · rw [h4, k4, (h.map _).sum_eq]
  · rw [h5, k5, (h.map _).sum_eq]
  · rw [h6, k6, (h.map _).sum_eq]
  · rw [h7, k7, (h.map _).sum_eq]
  · rw [h8, k8, (h.map _).sum_eq]

/-- A list of pairs is the zip of its two components. -/
theorem zip_map_fst_map_snd {A B : Type} (l : List (A × B)) :
    (l.map Prod.fst).zip (l.map Prod.snd) = l := by
  induction l with
  | nil => rfl
  | cons a l ih => simp [ih]

/-- C11: `GetWeightedMean` is order-independent in exact arithmetic: for every sequence
of particles with their weights and every permutation of it (applied jointly to the
particles and the weights), the call ends in the same way and leaves the same five
fields in `mean_particle`. -/
theorem GetWeightedMean_order_independent (l l' : List (HeadBodyParticle ℝ × ℝ))
    (h : l.Perm l') (mean_particle : HeadBodyParticle (Dbl ℝ)) :
    GetWeightedMean cmath (l.map Prod.fst) (l.map Prod.snd) mean_particle =
      GetWeightedMean cmath (l'.map Prod.fst) (l'.map Prod.snd) mean_particle := by
  have e : accumulate cmath (l.map Prod.fst) (l.map Prod.snd) =
      accumulate cmath (l'.map Prod.fst) (l'.map Prod.snd) := by
    unfold accumulate
    rw [zip_map_fst_map_snd, zip_map_fst_map_snd]
    exact foldl_step_perm l l' h Sums.init
  unfold GetWeightedMean
  simp only [List.length_map, ne_eq, not_true_eq_false, if_false, e]

/-- Two particles with their weights, and the two in the other order. -/
theorem GetWeightedMean_order_independent_witness :
    GetWeightedMean cmath [⟨0, 0, 1, 0, 2⟩, ⟨10, 0, 1, 1, 2⟩] [3, 1]
        ⟨none, none, none, none, none⟩ =
      GetWeightedMean cmath [⟨10, 0, 1, 1, 2⟩, ⟨0, 0, 1, 0, 2⟩] [1, 3]
        ⟨none, none, none, none, none⟩ :=
  GetWeightedMean_order_independent [(⟨0, 0, 1, 0, 2⟩, 3), (⟨10, 0, 1, 1, 2⟩, 1)]
    [(⟨10, 0, 1, 1, 2⟩, 1), (⟨0, 0, 1, 0, 2⟩, 3)] (List.Perm.swap _ _ _)
    ⟨none, none, none, none, none⟩

/-! ### What a failed call leaves in `mean_particle` -/

/-- C12, as the code has it: on an empty population, and on one particle of weight 0,
the fields `x`, `y` and `s` of `mean_particle` do not keep the value 7 they had
before the call: they are set to the product of the sum with `1.0 / 0`, which is not
a finite number. -/
theorem GetWeightedMean_zero_sum_overwrites :
    (GetWeightedMean cmath [] [] ⟨some 7, some 7, some 7, some 7, some 7⟩).2.x = none ∧
    (GetWeightedMean cmath [] [] ⟨some 7, some 7, some 7, some 7, some 7⟩).2.y = none ∧
    (GetWeightedMean cmath [] [] ⟨some 7, some 7, some 7, some 7, some 7⟩).2.s = none ∧
    (GetWeightedMean cmath [⟨1, 2, 3, 0, 0⟩] [0]
      ⟨some 7, some 7, some 7, some 7, some 7⟩).2.x = none := by
  refine ⟨?_, ?_, ?_, ?_⟩
  · rw [GetWeightedMean_eq cmath _ _ _ rfl]
    norm_num [Spec.directionVector, Spec.squaredMagnitude, linearFieldsSet]
  · rw [GetWeightedMean_eq cmath _ _ _ rfl]
    norm_num [Spec.directionVector, Spec.squaredMagnitude, linearFieldsSet]
  · rw [GetWeightedMean_eq cmath _ _ _ rfl]
    norm_num [Spec.directionVector, Spec.squaredMagnitude, linearFieldsSet]
  · rw [GetWeightedMean_eq cmath _ _ _ rfl]
    norm_num [Spec.directionVector, Spec.squaredMagnitude, linearFieldsSet]

/-- C12, amended: when `GetWeightedMean` is called with an empty population, or with
sequences of the same length whose non-negative weights sum to 0, the failure is
found after the accumulation, as the head-direction averaging error: the fields `dh`
and `db` of `mean_particle` still hold the values they had before the call, while
`x`, `y` and `s` have been set, to values that are not finite. -/
theorem GetWeightedMean_zero_sum_state (particles : List (HeadBodyParticle ℝ)) (weights : List ℝ)
    (mean_particle : HeadBodyParticle (Dbl ℝ)) :
    (GetWeightedMean cmath [] [] mean_particle =
      (.error (.runtime_error "Failed to calculate head direction average."),
        { x := none, y := none, s := none, dh := mean_particle.dh, db := mean_particle.db })) ∧
    (particles.length = weights.length → (∀ w ∈ weights, 0 ≤ w) → weights.sum = 0 →
      GetWeightedMean cmath particles weights mean_particle =
        (.error (.runtime_error "Failed to calculate head direction average."),
          { x := none, y := none, s := none, dh := mean_particle.dh,
            db := mean_particle.db })) := by
  constructor
  · rw [GetWeightedMean_eq cmath _ _ _ rfl]
    norm_num [Spec.directionVector, Spec.squaredMagnitude, linearFieldsSet]
  · intro h hw hsum
    rw [GetWeightedMean_eq cmath particles weights mean_particle h,
      directionVector_zero_sum _ weights hw hsum]
    norm_num [Spec.squaredMagnitude, linearFieldsSet, hsum]

/-- Two particles of weight 0, and a mean particle that held 1 to 5 before the call. -/
theorem GetWeightedMean_zero_sum_state_witness :
    GetWeightedMean cmath [⟨1, 2, 3, 0, 0⟩, ⟨4, 5, 6, 1, 1⟩] [0, 0]
        ⟨some 1, some 2, some 3, some 4, some 5⟩ =
      (.error (.runtime_error "Failed to calculate head direction average."),
        { x := none, y := none, s := none, dh := some 4, db := some 5 }) :=
  (GetWeightedMean_zero_sum_state [⟨1, 2, 3, 0, 0⟩, ⟨4, 5, 6, 1, 1⟩] [0, 0]
    ⟨some 1, some 2, some 3, some 4, some 5⟩).2 rfl (by simp) (by simp)

/-- C15: whenever `GetWeightedMean` ends in an error, in particular the head-direction
or the body-direction averaging error, it has written no angle into `mean_particle`:
`dh` and `db` both still hold the values they had before the call. -/
theorem GetWeightedMean_error_keeps_angles (particles : List (HeadBodyParticle ℝ))
    (weights : List ℝ) (mean_particle : HeadBodyParticle (Dbl ℝ)) (raised : Raised)
    (h : (GetWeightedMean cmath particles weights mean_particle).1 = .error raised) :
    (GetWeightedMean cmath particles weights mean_particle).2.dh = mean_particle.dh ∧
    (GetWeightedMean cmath particles weights mean_particle).2.db = mean_particle.db := by
  simp only [GetWeightedMean] at h ⊢
  split_ifs at h ⊢
  · exact ⟨rfl, rfl⟩
  · exact ⟨rfl, rfl⟩
  · exact ⟨rfl, rfl⟩

/-- The accumulated vector of two opposite directions of the same weight is zero. -/
theorem directionVector_opposite :
    Spec.directionVector cmath [0, 4] [1, 1] = (0, 0) := by
  have e4 : (4 : ℝ) * (2 * Real.pi / 8) = Real.pi := by ring
  simp only [Spec.directionVector, cmath, List.zipWith_cons_cons, List.zipWith_nil_right,
    List.sum_cons, List.sum_nil, zero_mul, Real.cos_zero, Real.sin_zero, e4, Real.cos_pi,
    Real.sin_pi, Prod.mk.injEq]
  constructor <;> norm_num

/-- Two particles of one head direction and of opposite body directions: the call ends
in the body-direction error and neither angle is written. -/
theorem GetWeightedMean_error_keeps_angles_witness :
    (GetWeightedMean cmath [⟨0, 0, 1, 0, 0⟩, ⟨2, 2, 1, 0, 4⟩] [1, 1]
        ⟨some 1, some 2, some 3, some 4, some 5⟩).1 =
      .error (.runtime_error "Failed to calculate body direction average.") ∧
    (GetWeightedMean cmath [⟨0, 0, 1, 0, 0⟩, ⟨2, 2, 1, 0, 4⟩] [1, 1]
        ⟨some 1, some 2, some 3, some 4, some 5⟩).2.dh = some 4 ∧
    (GetWeightedMean cmath [⟨0, 0, 1, 0, 0⟩, ⟨2, 2, 1, 0, 4⟩] [1, 1]
        ⟨some 1, some 2, some 3, some 4, some 5⟩).2.db = some 5 :=
  have hbody : (GetWeightedMean cmath [⟨0, 0, 1, 0, 0⟩, ⟨2, 2, 1, 0, 4⟩] [1, 1]
      ⟨some 1, some 2, some 3, some 4, some 5⟩).1 =
      .error (.runtime_error "Failed to calculate body direction average.") := by
    rw [GetWeightedMean_eq cmath _ _ _ rfl]
    simp only [List.map_cons, List.map_nil]
    rw [directionVector_opposite]
    norm_num [Spec.directionVector, Spec.squaredMagnitude, cmath]
  ⟨hbody, GetWeightedMean_error_keeps_angles _ _ _ _ hbody⟩

/-! ### The constant `M_PI` of the source -/

section RoundedPi

open Real

/-- The constant `M_PI` of the source lies below π, by between `1.2e-16` and `1.3e-16`. -/
theorem M_PI_binary64_spec :
    (3 : ℝ) < (M_PI_binary64 : ℝ) ∧ (M_PI_binary64 : ℝ) < π ∧
    1.2e-16 < π - (M_PI_binary64 : ℝ) ∧ π - (M_PI_binary64 : ℝ) < 1.3e-16 := by
  have h1 := Real.pi_gt_d20
  have h2 := Real.pi_lt_d20
  have e : ((M_PI_binary64 : ℚ) : ℝ) = 884279719003555 / 2 ^ 48 := by
    unfold M_PI_binary64
    push_cast
    rfl
  rw [e]
  norm_num at h1 h2 ⊢
  refine ⟨?_, ?_, ?_⟩ <;> linarith

/-- The arctangent of `cmath64` returns values in `[-M_PI, M_PI]`. -/
theorem atan2_binary64_range (y x : ℝ) :
    -(M_PI_binary64 : ℝ) ≤ atan2_binary64 y x ∧ atan2_binary64 y x ≤ (M_PI_binary64 : ℝ) := by
  have hM := M_PI_binary64_spec.1
  unfold atan2_binary64
  constructor
  · exact le_max_left _ _
  · apply max_le
    · linarith
    · exact min_le_left _ _

/-- The arctangent of `cmath64` at a point in polar form with an angle in
`[-M_PI, M_PI]`. -/
theorem atan2_binary64_polar {r θ : ℝ} (hr : 0 < r) (h1 : -(M_PI_binary64 : ℝ) ≤ θ)
    (h2 : θ ≤ (M_PI_binary64 : ℝ)) :
    atan2_binary64 (r * Real.sin θ) (r * Real.cos θ) = θ := by
  have hM := M_PI_binary64_spec.2.1
  unfold atan2_binary64
  rw [atan2_polar hr (by linarith) (by linarith), min_eq_right h2, max_eq_right h1]

/-- The accumulated vector of values that are all `v`, for any functions of `<cmath>`. -/
theorem directionVector_const_of (m : CMath ℝ) (v : ℝ) (values weights : List ℝ)
    (hlen : values.length = weights.length) (hall : ∀ u ∈ values, u = v) :
    Spec.directionVector m values weights =
      (weights.sum * m.cos (v * (2 * m.M_PI / 8)), weights.sum * m.sin (v * (2 * m.M_PI / 8))) := by
  induction values generalizing weights with
  | nil =>
    cases weights with
    | nil => simp [Spec.directionVector]
    | cons w ws => simp at hlen
  | cons u us ih =>
    cases weights with
    | nil => simp at hlen
    | cons w ws =>
      have hu : u = v := hall u (List.mem_cons_self u us)
      have ih2 := ih ws (by simpa using hlen) (fun t ht => hall t (List.mem_cons_of_mem u ht))
      simp only [Spec.directionVector, Prod.mk.injEq] at ih2 ⊢
      simp only [List.zipWith_cons_cons, List.sum_cons, ih2.1, ih2.2, hu]
      constructor <;> ring

/-- With `M_PI` as in the source, the circular mean of values that are all `v` is
`(v · 2·M_PI/8 - k · 2π) · 8 / (2·M_PI)` for the whole number `k` of turns that brings
the angle into `[-M_PI, M_PI]`. -/
theorem circularMean64_const (v : ℝ) (k : ℤ) (values weights : List ℝ)
    (hlen : values.length = weights.length) (hall : ∀ u ∈ values, u = v)
    (hpos : 0 < weights.sum)
    (h1 : -(M_PI_binary64 : ℝ) ≤ v * (2 * (M_PI_binary64 : ℝ) / 8) - k * (2 * Real.pi))
    (h2 : v * (2 * (M_PI_binary64 : ℝ) / 8) - k * (2 * Real.pi) ≤ (M_PI_binary64 : ℝ)) :
    Spec.circularMean cmath64 values weights =
      (v * (2 * (M_PI_binary64 : ℝ) / 8) - k * (2 * Real.pi)) * 8 / (2 * (M_PI_binary64 : ℝ)) := by
  unfold Spec.circularMean
  rw [directionVector_const_of cmath64 v values weights hlen hall]
  simp only [cmath64]
  rw [← Real.cos_sub_int_mul_two_pi (v * (2 * (M_PI_binary64 : ℝ) / 8)) k,
    ← Real.sin_sub_int_mul_two_pi (v * (2 * (M_PI_binary64 : ℝ) / 8)) k,
    atan2_binary64_polar hpos h1 h2]

/-- With `M_PI` as in the source, the squared magnitude of the accumulated vector of
values that are all `v` is the square of the weight sum. -/
theorem squaredMagnitude64_const (v : ℝ) (values weights : List ℝ)
    (hlen : values.length = weights.length) (hall : ∀ u ∈ values, u = v) :
    Spec.squaredMagnitude (Spec.directionVector cmath64 values weights) = weights.sum ^ 2 := by
  rw [directionVector_const_of cmath64 v values weights hlen hall]
  exact squaredMagnitude_polar _ _

/-- With `M_PI` as in the source: on a population that shares one `dh` value `v` and one
`db` value, with a positive weight sum `W` and `W² > 1e-10`, the call succeeds and
returns the direction `v` brought into `[-M_PI, M_PI]` by `k` whole turns. -/
theorem GetWeightedMean64_shared (v c : ℝ) (k : ℤ) (particles : List (HeadBodyParticle ℝ))
    (weights : List ℝ) (mean_particle : HeadBodyParticle (Dbl ℝ))
    (hlen : particles.length = weights.length)
    (hdh : ∀ p ∈ particles, p.dh = v) (hdb : ∀ p ∈ particles, p.db = c)
    (hpos : 0 < weights.sum) (hbig : 1e-10 < weights.sum ^ 2)
    (h1 : -(M_PI_binary64 : ℝ) ≤ v * (2 * (M_PI_binary64 : ℝ) / 8) - k * (2 * Real.pi))
    (h2 : v * (2 * (M_PI_binary64 : ℝ) / 8) - k * (2 * Real.pi) ≤ (M_PI_binary64 : ℝ)) :
    (GetWeightedMean cmath64 particles weights mean_particle).1 = .ok () ∧
    (GetWeightedMean cmath64 particles weights mean_particle).2.dh =
      some ((v * (2 * (M_PI_binary64 : ℝ) / 8) - k * (2 * Real.pi)) * 8 /
        (2 * (M_PI_binary64 : ℝ))) := by
  have hlen2 : (particles.map (fun p => p.dh)).length = weights.length := by simpa using hlen
  have hlen3 : (particles.map (fun p => p.db)).length = weights.length := by simpa using hlen
  have hall : ∀ u ∈ particles.map (fun p => p.dh), u = v := by
    intro u hu
    obtain ⟨p, hp, rfl⟩ := List.mem_map.mp hu
    exact hdh p hp
  have hallb : ∀ u ∈ particles.map (fun p => p.db), u = c := by
    intro u hu
    obtain ⟨p, hp, rfl⟩ := List.mem_map.mp hu
    exact hdb p hp
  rw [GetWeightedMean_eq cmath64 particles weights mean_particle hlen,
    circularMean64_const v k _ weights hlen2 hall hpos h1 h2,
    squaredMagnitude64_const v _ weights hlen2 hall,
    squaredMagnitude64_const c _ weights hlen3 hallb]
  simp [not_le.mpr hbig]

/-! ### The eight directions under the constant of the source -/

/-- With `M_PI` as in the source, the eight directions, one each and equally weighted, do
not cancel exactly: half a turn is `M_PI`, short of π by `δ = π - M_PI`, and the sum
of the eight vectors is of the order of `w · δ`. -/
theorem directionVector64_eight (w : ℝ) (values : List ℝ)
    (h : values.Perm [0, 1, 2, 3, 4, 5, 6, 7]) :
    Spec.directionVector cmath64 values (List.replicate 8 w) =
      (w * (-2 * Real.sin ((Real.pi - (M_PI_binary64 : ℝ)) / 2) *
        (Real.sin (0 * (2 * (M_PI_binary64 : ℝ) / 8) - (Real.pi - (M_PI_binary64 : ℝ)) / 2) +
         Real.sin (1 * (2 * (M_PI_binary64 : ℝ) / 8) - (Real.pi - (M_PI_binary64 : ℝ)) / 2) +
         Real.sin (2 * (2 * (M_PI_binary64 : ℝ) / 8) - (Real.pi - (M_PI_binary64 : ℝ)) / 2) +
         Real.sin (3 * (2 * (M_PI_binary64 : ℝ) / 8) - (Real.pi - (M_PI_binary64 : ℝ)) / 2))),
       w * (2 * Real.sin ((Real.pi - (M_PI_binary64 : ℝ)) / 2) *
        (Real.cos (0 * (2 * (M_PI_binary64 : ℝ) / 8) - (Real.pi - (M_PI_binary64 : ℝ)) / 2) +
         Real.cos (1 * (2 * (M_PI_binary64 : ℝ) / 8) - (Real.pi - (M_PI_binary64 : ℝ)) / 2) +
         Real.cos (2 * (2 * (M_PI_binary64 : ℝ) / 8) - (Real.pi - (M_PI_binary64 : ℝ)) / 2) +
         Real.cos (3 * (2 * (M_PI_binary64 : ℝ) / 8) - (Real.pi - (M_PI_binary64 : ℝ)) / 2)))) := by
  have hl : values.length = 8 := h.length_eq
  have hc : ∀ a : ℝ, Real.cos a + Real.cos (a + 4 * (2 * (M_PI_binary64 : ℝ) / 8)) =
      -2 * Real.sin ((Real.pi - (M_PI_binary64 : ℝ)) / 2) *
        Real.sin (a - (Real.pi - (M_PI_binary64 : ℝ)) / 2) := by
    intro a
    rw [show a + 4 * (2 * (M_PI_binary64 : ℝ) / 8) =
      (a - (Real.pi - (M_PI_binary64 : ℝ))) + Real.pi by ring, Real.cos_add_pi,
      ← sub_eq_add_neg, Real.cos_sub_cos]
    rw [show (a + (a - (Real.pi - (M_PI_binary64 : ℝ)))) / 2 =
        a - (Real.pi - (M_PI_binary64 : ℝ)) / 2 by ring,
      show (a - (a - (Real.pi - (M_PI_binary64 : ℝ)))) / 2 =
        (Real.pi - (M_PI_binary64 : ℝ)) / 2 by ring]
    ring
  have hs : ∀ a : ℝ, Real.sin a + Real.sin (a + 4 * (2 * (M_PI_binary64 : ℝ) / 8)) =
      2 * Real.sin ((Real.pi - (M_PI_binary64 : ℝ)) / 2) *
        Real.cos (a - (Real.pi - (M_PI_binary64 : ℝ)) / 2) := by
    intro a
    rw [show a + 4 * (2 * (M_PI_binary64 : ℝ) / 8) =
      (a - (Real.pi - (M_PI_binary64 : ℝ))) + Real.pi by ring, Real.sin_add_pi,
      ← sub_eq_add_neg, Real.sin_sub_sin]
    rw [show (a + (a - (Real.pi - (M_PI_binary64 : ℝ)))) / 2 =
        a - (Real.pi - (M_PI_binary64 : ℝ)) / 2 by ring,
      show (a - (a - (Real.pi - (M_PI_binary64 : ℝ)))) / 2 =
        (Real.pi - (M_PI_binary64 : ℝ)) / 2 by ring]
  have e4 : (4 : ℝ) * (2 * (M_PI_binary64 : ℝ) / 8) =
      0 * (2 * (M_PI_binary64 : ℝ) / 8) + 4 * (2 * (M_PI_binary64 : ℝ) / 8) := by ring
  have e5 : (5 : ℝ) * (2 * (M_PI_binary64 : ℝ) / 8) =
      1 * (2 * (M_PI_binary64 : ℝ) / 8) + 4 * (2 * (M_PI_binary64 : ℝ) / 8) := by ring
  have e6 : (6 : ℝ) * (2 * (M_PI_binary64 : ℝ) / 8) =
      2 * (2 * (M_PI_binary64 : ℝ) / 8) + 4 * (2 * (M_PI_binary64 : ℝ) / 8) := by ring
  have e7 : (7 : ℝ) * (2 * (M_PI_binary64 : ℝ) / 8) =
      3 * (2 * (M_PI_binary64 : ℝ) / 8) + 4 * (2 * (M_PI_binary64 : ℝ) / 8) := by ring
  unfold Spec.directionVector
  rw [← hl, zipWith_replicate_length, zipWith_replicate_length,
    (h.map _).sum_eq, (h.map _).sum_eq]
  simp only [List.map_cons, List.map_nil, List.sum_cons, List.sum_nil, cmath64]
  rw [e4, e5, e6, e7]
  refine Prod.ext ?_ ?_
  · simp only
    have k0 := hc (0 * (2 * (M_PI_binary64 : ℝ) / 8))
    have k1 := hc (1 * (2 * (M_PI_binary64 : ℝ) / 8))
    have k2 := hc (2 * (2 * (M_PI_binary64 : ℝ) / 8))
    have k3 := hc (3 * (2 * (M_PI_binary64 : ℝ) / 8))
    linear_combination w * k0 + w * k1 + w * k2 + w * k3
  · simp only
    have k0 := hs (0 * (2 * (M_PI_binary64 : ℝ) / 8))
    have k1 := hs (1 * (2 * (M_PI_binary64 : ℝ) / 8))
    have k2 := hs (2 * (2 * (M_PI_binary64 : ℝ) / 8))
    have k3 := hs (3 * (2 * (M_PI_binary64 : ℝ) / 8))
    linear_combination w * k0 + w * k1 + w * k2 + w * k3

/-- A vector `w · 2s · (-A, B)` with `w ≤ 1e8`, `s ≤ 6.5e-17` and `|A|, |B| ≤ 4` has a
squared magnitude below the threshold. -/
theorem residue_small (w s A B : ℝ) (hw0 : 0 < w) (hw : w ≤ 10 ^ 8) (hs0 : 0 ≤ s)
    (hs1 : s ≤ 65 / 10 ^ 18) (hA : |A| ≤ 4) (hB : |B| ≤ 4) :
    (w * (-2 * s * A)) ^ 2 + (w * (2 * s * B)) ^ 2 ≤ 1 / 10 ^ 10 := by
  have hA2 : A ^ 2 ≤ 16 := by
    have := sq_le_sq' (neg_le_of_abs_le hA) (le_of_abs_le hA)
    linarith
  have hB2 : B ^ 2 ≤ 16 := by
    have := sq_le_sq' (neg_le_of_abs_le hB) (le_of_abs_le hB)
    linarith
  have hws : (w * s) ^ 2 ≤ (10 ^ 8 * (65 / 10 ^ 18)) ^ 2 :=
    pow_le_pow_left₀ (mul_nonneg hw0.le hs0) (mul_le_mul hw hs1 hs0 (by norm_num)) 2
  have e : (w * (-2 * s * A)) ^ 2 + (w * (2 * s * B)) ^ 2 = 4 * (w * s) ^ 2 * (A ^ 2 + B ^ 2) := by
    ring
  rw [e]
  have h32 : 4 * (w * s) ^ 2 * (A ^ 2 + B ^ 2) ≤ 4 * (10 ^ 8 * (65 / 10 ^ 18)) ^ 2 * 32 := by
    apply mul_le_mul _ (by linarith) (by positivity) (by positivity)
    linarith
  refine le_trans h32 ?_
  norm_num

/-- A vector `1e20 · 2s · (-A, B)` with `s ≥ 3e-17` and `A ≥ 0.4` has a squared magnitude
above the threshold. -/
theorem residue_large (s A B : ℝ) (hs : 3 / 10 ^ 17 ≤ s) (hA : 4 / 10 ≤ A) :
    1 / 10 ^ 10 < (10 ^ 20 * (-2 * s * A)) ^ 2 + (10 ^ 20 * (2 * s * B)) ^ 2 := by
  have h1 : (3 / 10 ^ 17 : ℝ) * (4 / 10) ≤ s * A :=
    mul_le_mul hs hA (by norm_num) (le_trans (by norm_num) hs)
  have hprod : 1 ≤ 10 ^ 20 * (2 * (s * A)) := by
    norm_num at h1 ⊢
    linarith
  have hsq : 1 ≤ (10 ^ 20 * (-2 * s * A)) ^ 2 := by
    have : (10 ^ 20 * (-2 * s * A)) ^ 2 = (10 ^ 20 * (2 * (s * A))) ^ 2 := by ring
    rw [this]
    exact one_le_pow₀ hprod
  have hB0 : 0 ≤ (10 ^ 20 * (2 * s * B)) ^ 2 := sq_nonneg _
  have : (1 / 10 ^ 10 : ℝ) < 1 := by norm_num
  linarith

/-- With `M_PI` as in the source, the sum of the eight equally weighted directions is
`w · 2s · (-A, B)` with `s = sin(δ/2)` between `3e-17` and `6.5e-17`, and with `A`
between `0.4` and `4` and `B` between `-4` and `4`. -/
theorem directionVector64_eight_bounds (w : ℝ) (values : List ℝ)
    (h : values.Perm [0, 1, 2, 3, 4, 5, 6, 7]) :
    ∃ s A B : ℝ, Spec.directionVector cmath64 values (List.replicate 8 w) =
        (w * (-2 * s * A), w * (2 * s * B)) ∧
      3 / 10 ^ 17 ≤ s ∧ s ≤ 65 / 10 ^ 18 ∧ |A| ≤ 4 ∧ |B| ≤ 4 ∧ 4 / 10 ≤ A := by
  obtain ⟨hM3, hMpi, hlo, hhi⟩ := M_PI_binary64_spec
  have hpi4 := Real.pi_lt_four
  have hpi0 := Real.pi_pos
  have hlo' : (12 / 10 ^ 17 : ℝ) < Real.pi - (M_PI_binary64 : ℝ) := by
    norm_num at hlo ⊢
    linarith
  have hhi' : Real.pi - (M_PI_binary64 : ℝ) < (13 / 10 ^ 17 : ℝ) := by
    norm_num at hhi ⊢
    linarith
  have hs1 : 3 / 10 ^ 17 ≤ Real.sin ((Real.pi - (M_PI_binary64 : ℝ)) / 2) := by
    have h1 := Real.mul_le_sin (show 0 ≤ (Real.pi - (M_PI_binary64 : ℝ)) / 2 by linarith)
      (by linarith)
    have h2 : (3 / 10 ^ 17 : ℝ) ≤ 2 / Real.pi * ((Real.pi - (M_PI_binary64 : ℝ)) / 2) := by
      rw [div_mul_eq_mul_div, le_div_iff₀ Real.pi_pos]
      norm_num at hlo' ⊢
      linarith
    linarith
  have hs2 : Real.sin ((Real.pi - (M_PI_binary64 : ℝ)) / 2) ≤ 65 / 10 ^ 18 := by
    have := Real.sin_le (show 0 ≤ (Real.pi - (M_PI_binary64 : ℝ)) / 2 by linarith)
    norm_num at hhi' ⊢
    linarith
  have a0 : -(1 / 10 ^ 16) ≤
      Real.sin (0 * (2 * (M_PI_binary64 : ℝ) / 8) - (Real.pi - (M_PI_binary64 : ℝ)) / 2) := by
    rw [zero_mul, zero_sub, Real.sin_neg]
    norm_num at hs2 ⊢
    linarith
  have a1 : 0 ≤
      Real.sin (1 * (2 * (M_PI_binary64 : ℝ) / 8) - (Real.pi - (M_PI_binary64 : ℝ)) / 2) :=
    Real.sin_nonneg_of_nonneg_of_le_pi (by linarith) (by linarith)
  have a2 : 1 / 2 ≤
      Real.sin (2 * (2 * (M_PI_binary64 : ℝ) / 8) - (Real.pi - (M_PI_binary64 : ℝ)) / 2) := by
    rw [show 2 * (2 * (M_PI_binary64 : ℝ) / 8) - (Real.pi - (M_PI_binary64 : ℝ)) / 2 =
      Real.pi / 2 - (Real.pi - (M_PI_binary64 : ℝ)) by ring, Real.sin_pi_div_two_sub]
    have := Real.one_sub_sq_div_two_le_cos (x := Real.pi - (M_PI_binary64 : ℝ))
    nlinarith
  have a3 : 0 ≤
      Real.sin (3 * (2 * (M_PI_binary64 : ℝ) / 8) - (Real.pi - (M_PI_binary64 : ℝ)) / 2) :=
    Real.sin_nonneg_of_nonneg_of_le_pi (by linarith) (by linarith)
  refine ⟨_, _, _, directionVector64_eight w values h, hs1, hs2, ?_, ?_, ?_⟩
  · rw [abs_le]
    constructor
    · linarith
    · linarith [Real.sin_le_one (0 * (2 * (M_PI_binary64 : ℝ) / 8) - (Real.pi - (M_PI_binary64 : ℝ)) / 2),
        Real.sin_le_one (1 * (2 * (M_PI_binary64 : ℝ) / 8) - (Real.pi - (M_PI_binary64 : ℝ)) / 2),
        Real.sin_le_one (2 * (2 * (M_PI_binary64 : ℝ) / 8) - (Real.pi - (M_PI_binary64 : ℝ)) / 2),
        Real.sin_le_one (3 * (2 * (M_PI_binary64 : ℝ) / 8) - (Real.pi - (M_PI_binary64 : ℝ)) / 2)]
  · rw [abs_le]
    constructor
    · linarith [Real.neg_one_le_cos (0 * (2 * (M_PI_binary64 : ℝ) / 8) - (Real.pi - (M_PI_binary64 : ℝ)) / 2),
        Real.neg_one_le_cos (1 * (2 * (M_PI_binary64 : ℝ) / 8) - (Real.pi - (M_PI_binary64 : ℝ)) / 2),
        Real.neg_one_le_cos (2 * (2 * (M_PI_binary64 : ℝ) / 8) - (Real.pi - (M_PI_binary64 : ℝ)) / 2),
        Real.neg_one_le_cos (3 * (2 * (M_PI_binary64 : ℝ) / 8) - (Real.pi - (M_PI_binary64 : ℝ)) / 2)]
    · linarith [Real.cos_le_one (0 * (2 * (M_PI_binary64 : ℝ) / 8) - (Real.pi - (M_PI_binary64 : ℝ)) / 2),
        Real.cos_le_one (1 * (2 * (M_PI_binary64 : ℝ) / 8) - (Real.pi - (M_PI_binary64 : ℝ)) / 2),
        Real.cos_le_one (2 * (2 * (M_PI_binary64 : ℝ) / 8) - (Real.pi - (M_PI_binary64 : ℝ)) / 2),
        Real.cos_le_one (3 * (2 * (M_PI_binary64 : ℝ) / 8) - (Real.pi - (M_PI_binary64 : ℝ)) / 2)]
  · linarith

/-- With `M_PI` as in the source, the eight directions with a common weight of at most
`1e8` leave a vector whose squared magnitude is below the threshold. -/
theorem squaredMagnitude64_eight_le (w : ℝ) (hw0 : 0 < w) (hw : w ≤ 1e8) (values : List ℝ)
    (h : values.Perm [0, 1, 2, 3, 4, 5, 6, 7]) :
    Spec.squaredMagnitude (Spec.directionVector cmath64 values (List.replicate 8 w)) ≤ 1e-10 := by
  obtain ⟨s, A, B, hv, hs1, hs2, hA, hB, -⟩ := directionVector64_eight_bounds w values h
  rw [hv]
  have key := residue_small w s A B hw0 (by norm_num at hw ⊢; exact hw)
    (le_trans (by norm_num) hs1) hs2 hA hB
  simp only [Spec.squaredMagnitude]
  norm_num at key ⊢
  exact key

/-- With `M_PI` as in the source, the eight directions with the common weight `1e20` leave
a vector whose squared magnitude is above the threshold. -/
theorem squaredMagnitude64_eight_gt (values : List ℝ)
    (h : values.Perm [0, 1, 2, 3, 4, 5, 6, 7]) :
    1e-10 < Spec.squaredMagnitude (Spec.directionVector cmath64 values (List.replicate 8 1e20)) := by
  obtain ⟨s, A, B, hv, hs1, -, -, -, hA⟩ := directionVector64_eight_bounds 1e20 values h
  rw [hv]
  have key := residue_large s A B hs1 hA
  simp only [Spec.squaredMagnitude]
  norm_num at key ⊢
  exact key

/-- C5, as the code has it: with `M_PI` the binary64 number of the source, the eight
equally weighted directions do not cancel exactly, and the guard compares the squared
magnitude of what is left with the fixed `1e-10`: for the common weight `1e20` the
call does not raise the head-direction error, it succeeds. -/
theorem GetWeightedMean_eight_directions_large_weight :
    (GetWeightedMean cmath64
        [⟨0, 0, 1, 0, 0⟩, ⟨0, 0, 1, 1, 0⟩, ⟨0, 0, 1, 2, 0⟩, ⟨0, 0, 1, 3, 0⟩,
         ⟨0, 0, 1, 4, 0⟩, ⟨0, 0, 1, 5, 0⟩, ⟨0, 0, 1, 6, 0⟩, ⟨0, 0, 1, 7, 0⟩]
        (List.replicate 8 1e20) ⟨none, none, none, none, none⟩).1 = .ok () := by
  have hdh := squaredMagnitude64_eight_gt [0, 1, 2, 3, 4, 5, 6, 7] (List.Perm.refl _)
  have hdb := squaredMagnitude64_const 0 [0, 0, 0, 0, 0, 0, 0, 0] (List.replicate 8 1e20)
    (by simp) (by simp)
  rw [GetWeightedMean_eq cmath64 _ _ _ (by simp)]
  simp only [List.map_cons, List.map_nil]
  rw [hdb, if_neg (not_le.mpr hdh), if_neg]
  simp only [List.replicate, List.sum_cons, List.sum_nil]
  norm_num

/-- C5, amended: for every weight `w` with `0 < w ≤ 1e8`, `GetWeightedMean` on eight
particles whose `dh` values are 0, 1, 2, 3, 4, 5, 6, 7, one each in any order, all of
weight `w`, raises the head-direction error: the eight weighted direction vectors
cancel up to a rest of the order of `w · 1e-16`, whose squared magnitude is below
`1e-10`. -/
theorem GetWeightedMean_eight_directions (w : ℝ) (hw0 : 0 < w) (hw : w ≤ 1e8)
    (particles : List (HeadBodyParticle ℝ))
    (hdh : (particles.map (fun p => p.dh)).Perm [0, 1, 2, 3, 4, 5, 6, 7])
    (mean_particle : HeadBodyParticle (Dbl ℝ)) :
    (GetWeightedMean cmath64 particles (List.replicate 8 w) mean_particle).1 =
      .error (.runtime_error "Failed to calculate head direction average.") := by
  have hl : particles.length = (List.replicate 8 w).length := by
    have := hdh.length_eq
    simpa using this
  have hv := squaredMagnitude64_eight_le w hw0 hw _ hdh
  rw [GetWeightedMean_eq cmath64 particles _ mean_particle hl, if_pos hv]

/-- Eight particles with the directions 0 to 7 in this order, of weight 2. -/
theorem GetWeightedMean_eight_directions_witness :
    (GetWeightedMean cmath64
        [⟨0, 0, 1, 0, 0⟩, ⟨0, 0, 1, 1, 0⟩, ⟨0, 0, 1, 2, 0⟩, ⟨0, 0, 1, 3, 0⟩,
         ⟨0, 0, 1, 4, 0⟩, ⟨0, 0, 1, 5, 0⟩, ⟨0, 0, 1, 6, 0⟩, ⟨0, 0, 1, 7, 0⟩]
        (List.replicate 8 2) ⟨none, none, none, none, none⟩).1 =
      .error (.runtime_error "Failed to calculate head direction average.") :=
  GetWeightedMean_eight_directions 2 (by norm_num) (by norm_num)
    [⟨0, 0, 1, 0, 0⟩, ⟨0, 0, 1, 1, 0⟩, ⟨0, 0, 1, 2, 0⟩, ⟨0, 0, 1, 3, 0⟩,
     ⟨0, 0, 1, 4, 0⟩, ⟨0, 0, 1, 5, 0⟩, ⟨0, 0, 1, 6, 0⟩, ⟨0, 0, 1, 7, 0⟩]
    (List.Perm.refl _) ⟨none, none, none, none, none⟩

/-! ### The circular dimensions modulo 8 -/

/-- C17, as the code has it: on two particles that share the direction `dh = -4`, of
weights 1 and 2, the call succeeds and returns `dh = -4`, which is not above -4: the
angle `-4 · 2 · M_PI / 8 = -M_PI` lies inside `(-π, π]`, `M_PI` being the binary64
number just below π, so the arctangent returns it as it is. -/
theorem GetWeightedMean_direction_minus_four :
    (GetWeightedMean cmath64 [⟨0, 0, 1, -4, 0⟩, ⟨5, 5, 1, -4, 0⟩] [1, 2]
        ⟨none, none, none, none, none⟩).1 = .ok () ∧
    (GetWeightedMean cmath64 [⟨0, 0, 1, -4, 0⟩, ⟨5, 5, 1, -4, 0⟩] [1, 2]
        ⟨none, none, none, none, none⟩).2.dh = some (-4) ∧
    ¬ ((-4 : ℝ) < -4) := by
  have hM := M_PI_binary64_spec.1
  have h := GetWeightedMean64_shared (-4) 0 0 [⟨0, 0, 1, -4, 0⟩, ⟨5, 5, 1, -4, 0⟩] [1, 2]
    ⟨none, none, none, none, none⟩ rfl (by simp) (by simp) (by norm_num) (by norm_num)
    (by push_cast; linarith) (by push_cast; linarith)
  refine ⟨h.1, ?_, by norm_num⟩
  rw [h.2]
  congr 1
  push_cast
  field_simp
  ring

/-- C17, amended: whenever `GetWeightedMean` succeeds, the returned orientation means lie
in the closed interval `[-4, 4]`, whatever the range of the `dh` and `db` values of the
population; a population that shares `dh = 7` (with one `db` value, positive weights
and a weight sum of at least `1e-4`) yields -1 up to `1e-9`, not 7. -/
theorem GetWeightedMean_angle_range :
    (∀ (particles : List (HeadBodyParticle ℝ)) (weights : List ℝ)
        (mean_particle : HeadBodyParticle (Dbl ℝ)),
      (GetWeightedMean cmath64 particles weights mean_particle).1 = .ok () →
      ∃ h b : ℝ, (GetWeightedMean cmath64 particles weights mean_particle).2.dh = some h ∧
        (GetWeightedMean cmath64 particles weights mean_particle).2.db = some b ∧
        -4 ≤ h ∧ h ≤ 4 ∧ -4 ≤ b ∧ b ≤ 4) ∧
    (∀ (c : ℝ) (particles : List (HeadBodyParticle ℝ)) (weights : List ℝ)
        (mean_particle : HeadBodyParticle (Dbl ℝ)),
      particles ≠ [] → particles.length = weights.length →
      (∀ p ∈ particles, p.dh = 7) → (∀ p ∈ particles, p.db = c) →
      (∀ w ∈ weights, 0 < w) → 1e-4 ≤ weights.sum →
      (GetWeightedMean cmath64 particles weights mean_particle).1 = .ok () ∧
      ∃ h : ℝ, (GetWeightedMean cmath64 particles weights mean_particle).2.dh = some h ∧
        |h + 1| ≤ 1e-9) := by
  obtain ⟨hM3, hMpi, hlo, hhi⟩ := M_PI_binary64_spec
  have eighths : ∀ y x : ℝ,
      -4 ≤ atan2_binary64 y x * 8 / (2 * (M_PI_binary64 : ℝ)) ∧
      atan2_binary64 y x * 8 / (2 * (M_PI_binary64 : ℝ)) ≤ 4 := by
    intro y x
    obtain ⟨a1, a2⟩ := atan2_binary64_range y x
    constructor
    · rw [le_div_iff₀ (by linarith)]
      linarith
    · rw [div_le_iff₀ (by linarith)]
      linarith
  constructor
  · intro particles weights mean_particle hok
    by_cases hl : particles.length = weights.length
    · rw [GetWeightedMean_eq cmath64 particles weights mean_particle hl] at hok ⊢
      split_ifs at hok ⊢
      obtain ⟨h1, h2⟩ := eighths
        (Spec.directionVector cmath64 (particles.map (fun p => p.dh)) weights).2
        (Spec.directionVector cmath64 (particles.map (fun p => p.dh)) weights).1
      obtain ⟨b1, b2⟩ := eighths
        (Spec.directionVector cmath64 (particles.map (fun p => p.db)) weights).2
        (Spec.directionVector cmath64 (particles.map (fun p => p.db)) weights).1
      exact ⟨_, _, rfl, rfl, h1, h2, b1, b2⟩
    · simp [GetWeightedMean, hl] at hok
  · intro c particles weights mean_particle hne hlen hdh hdb hw hsum
    have hpos : 0 < weights.sum := lt_of_lt_of_le (by norm_num) hsum
    have hbig : (1e-10 : ℝ) < weights.sum ^ 2 := by
      have : (1e-4 : ℝ) ^ 2 ≤ weights.sum ^ 2 := by
        exact pow_le_pow_left₀ (by norm_num) hsum 2
      norm_num at this ⊢
      linarith
    have h := GetWeightedMean64_shared 7 c 1 particles weights mean_particle hlen hdh hdb hpos
      hbig (by push_cast; linarith) (by push_cast; linarith)
    refine ⟨h.1, _, h.2, ?_⟩
    have e : (7 * (2 * (M_PI_binary64 : ℝ) / 8) - ((1 : ℤ) : ℝ) * (2 * Real.pi)) * 8 /
        (2 * (M_PI_binary64 : ℝ)) + 1 =
        -(8 * (Real.pi - (M_PI_binary64 : ℝ)) / (M_PI_binary64 : ℝ)) := by
      push_cast
      field_simp
      ring
    rw [e, abs_neg, abs_of_nonneg (by apply div_nonneg <;> linarith),
      div_le_iff₀ (by linarith)]
    norm_num at hhi ⊢
    nlinarith

/-- Two particles that share the direction 7: the call succeeds, and the mean direction
it returns lies in `[-4, 4]` and within `1e-9` of -1. -/
theorem GetWeightedMean_angle_range_witness :
    (∃ h : ℝ, (GetWeightedMean cmath64 [⟨0, 0, 1, 7, 1⟩, ⟨5, 5, 1, 7, 1⟩] [1, 2]
        ⟨none, none, none, none, none⟩).2.dh = some h ∧ |h + 1| ≤ 1e-9) ∧
    ∃ h b : ℝ, (GetWeightedMean cmath64 [⟨0, 0, 1, 7, 1⟩, ⟨5, 5, 1, 7, 1⟩] [1, 2]
        ⟨none, none, none, none, none⟩).2.dh = some h ∧
      (GetWeightedMean cmath64 [⟨0, 0, 1, 7, 1⟩, ⟨5, 5, 1, 7, 1⟩] [1, 2]
        ⟨none, none, none, none, none⟩).2.db = some b ∧
      -4 ≤ h ∧ h ≤ 4 ∧ -4 ≤ b ∧ b ≤ 4 :=
  have h7 := GetWeightedMean_angle_range.2 1 [⟨0, 0, 1, 7, 1⟩, ⟨5, 5, 1, 7, 1⟩] [1, 2]
    ⟨none, none, none, none, none⟩ (by simp) rfl (by simp) (by simp) (by simp) (by norm_num)
  ⟨h7.2, GetWeightedMean_angle_range.1 _ _ _ h7.1⟩

end RoundedPi

end HeadBodyParticleGenerator

end vision

/-! ## The adapter `StlMap1d` -/

namespace stdmap

variable {T : Type}

/-- An inserted key is in the map, with the inserted value. -/
theorem find_insert (l : List (ℤ × T)) (k : ℤ) (v : T) (h : find l k = none) :
    find (insert l k v) k = some v := by
  induction l with
  | nil => simp [insert, find]
  | cons e rest ih =>
    obtain ⟨k', v'⟩ := e
    by_cases hk : k = k'
    · simp [find, hk] at h
    · simp only [find, hk, if_false] at h
      by_cases hlt : k < k'
      · simp [insert, hlt, find]
      · simp [insert, hlt, find, hk, ih h]

/-- An assignment under a key of the map is read back. -/
theorem find_assign (l : List (ℤ × T)) (k : ℤ) (v : T) (h : (find l k).isSome) :
    find (assign l k v) k = some v := by
  induction l with
  | nil => simp [find] at h
  | cons e rest ih =>
    obtain ⟨k', v'⟩ := e
    by_cases hk : k = k'
    · simp [assign, find, hk]
    · simp only [find, hk, if_false] at h
      simp [assign, find, hk, ih h]

/-- An assignment keeps the number of entries. -/
theorem length_assign (l : List (ℤ × T)) (k : ℤ) (v : T) :
    (assign l k v).length = l.length := by
  induction l with
  | nil => rfl
  | cons e rest ih =>
    obtain ⟨k', v'⟩ := e
    by_cases hk : k = k'
    · simp [assign, hk]
    · simp [assign, hk, ih]

/-- An insertion adds one entry. -/
theorem length_insert (l : List (ℤ × T)) (k : ℤ) (v : T) :
    (insert l k v).length = l.length + 1 := by
  induction l with
  | nil => rfl
  | cons e rest ih =>
    obtain ⟨k', v'⟩ := e
    by_cases hlt : k < k'
    · simp [insert, hlt]
    · simp [insert, hlt, ih]

/-- After `operator[]( k )` the key `k` is in the map, and no entry is lost. -/
theorem subscript_spec (T0 : T) (m : stdmap T) (k : ℤ) :
    (find (subscript T0 m k).2.entries k).isSome ∧ m.size ≤ (subscript T0 m k).2.size := by
  unfold subscript
  cases h : find m.entries k with
  | some v => simp [h]
  | none => simp [find_insert _ k T0 h, size, length_insert]

/-- After `m[k] = v` the value `v` is stored under `k`, and no entry is lost. -/
theorem subscript_assign_spec (T0 : T) (m : stdmap T) (k : ℤ) (v : T) :
    find (subscript_assign T0 m k v).entries k = some v ∧
    m.size ≤ (subscript_assign T0 m k v).size := by
  obtain ⟨h1, h2⟩ := subscript_spec T0 m k
  unfold subscript_assign
  refine ⟨find_assign _ k v h1, ?_⟩
  simp only [size, length_assign] at h2 ⊢
  exact h2

/-- The operator `operator[]( k )` on a key of the map: the stored value, and the map
as it was. -/
theorem subscript_of_find (T0 : T) (m : stdmap T) (k : ℤ) (v : T)
    (h : find m.entries k = some v) : subscript T0 m k = (v, m) := by
  simp [subscript, h]

end stdmap

namespace StlMap1d

variable {T : Type}

/-- A read at an index under which the value `v` is stored: `v`, and the map as it was. -/
theorem coeff_of_find (T0 : T) (body_ : stdmap T) (index : ℤ) (v : T)
    (h0 : 0 ≤ index) (h1 : index < length body_)
    (h : stdmap.find body_.entries index = some v) :
    coeff T0 body_ index = .ok (v, body_) := by
  unfold coeff
  rw [if_pos ⟨h0, h1⟩, stdmap.subscript_of_find T0 body_ index v h]

/-- C14: for every backing map, every index with `0 <= index < length()` and every
value `v`, after `set_coeff( index, v )` a following `coeff( index )` returns `v`;
likewise after `SetCoeff( index, u )` a following `coeff( index )` returns `u`
converted to the element type `T`. -/
theorem coeff_after_set_coeff {T1 : Type} (static_cast_T : T1 → T) (T0 : T) (body_ : stdmap T)
    (index : ℤ) (v : T) (u : T1) (h0 : 0 ≤ index) (h1 : index < length body_) :
    (∃ body1, set_coeff T0 body_ index v = .ok body1 ∧
      coeff T0 body1 index = .ok (v, body1)) ∧
    (∃ body1, SetCoeff static_cast_T T0 body_ index u = .ok body1 ∧
      coeff T0 body1 index = .ok (static_cast_T u, body1)) := by
  have key : ∀ w : T, coeff T0 (stdmap.subscript_assign T0 body_ index w) index =
      .ok (w, stdmap.subscript_assign T0 body_ index w) := by
    intro w
    obtain ⟨hf, hs⟩ := stdmap.subscript_assign_spec T0 body_ index w
    refine coeff_of_find T0 _ index w h0 ?_ hf
    unfold length at h1 ⊢
    have : (body_.size : ℤ) ≤ ((stdmap.subscript_assign T0 body_ index w).size : ℤ) := by
      exact_mod_cast hs
    linarith
  constructor
  · refine ⟨stdmap.subscript_assign T0 body_ index v, ?_, key v⟩
    unfold set_coeff
    rw [if_pos ⟨h0, h1⟩]
  · refine ⟨stdmap.subscript_assign T0 body_ index (static_cast_T u), ?_, key _⟩
    unfold SetCoeff
    rw [if_pos ⟨h0, h1⟩]

/-- A map with the keys -3 and 5, written at the index 1 that is not a key, once with
the value 7 and once with the natural number 8 converted to an integer. -/
theorem coeff_after_set_coeff_witness :
    (∃ body1, set_coeff (0 : ℤ) ⟨[(-3, 9), (5, 3)]⟩ 1 7 = .ok body1 ∧
      coeff 0 body1 1 = .ok (7, body1)) ∧
    (∃ body1, SetCoeff (fun n : ℕ => (n : ℤ)) (0 : ℤ) ⟨[(-3, 9), (5, 3)]⟩ 1 8 = .ok body1 ∧
      coeff 0 body1 1 = .ok (((8 : ℕ) : ℤ), body1)) :=
  coeff_after_set_coeff (fun n : ℕ => (n : ℤ)) (0 : ℤ) ⟨[(-3, 9), (5, 3)]⟩ 1 7 8
    (by decide) (by decide)

/-- C18, at the failing input: on the backing map with the one key 5, `coeff( 0 )`
passes its assertion (`0 <= 0 < length() = 1`), returns the value-initialised 0 and
leaves a map with the two keys 0 and 5, so that `length()` is 2 after the read. -/
theorem coeff_inserts_missing_key :
    length (⟨[(5, 9)]⟩ : stdmap ℤ) = 1 ∧
    coeff (0 : ℤ) ⟨[(5, 9)]⟩ 0 = .ok (0, ⟨[(0, 0), (5, 9)]⟩) ∧
    length (⟨[(0, 0), (5, 9)]⟩ : stdmap ℤ) = 2 :=
  ⟨rfl, rfl, rfl⟩

end StlMap1d

/-! ## The conversions `Convert` -/

namespace Convert

variable {T : Type}

/-- A loop of `push_back` appends the image of the range it runs over. -/
theorem foldl_push_back {A : Type} (f : ℕ → A) (l : List ℕ) (init : List A) :
    l.foldl (fun acc x => acc ++ [f x]) init = init ++ l.map f := by
  induction l generalizing init with
  | nil => simp
  | cons x xs ih => simp [ih]

/-- The vector of vectors that the conversion of an array of dynamic dimensions leaves
in an empty vector. -/
theorem array_to_vectors_dynamic (a : EigenArray T) :
    array_to_vectors (-1) (-1) a [] =
      .ok ((List.range a.rows).map (fun r => (List.range a.cols).map (fun c => a.coeff r c))) := by
  simp [array_to_vectors, foldl_push_back]

/-- The elements of the converted array. -/
theorem element_of_array (a : EigenArray T) (r c : ℕ) (hr : r < a.rows) (hc : c < a.cols) :
    element ((List.range a.rows).map (fun r => (List.range a.cols).map (fun c => a.coeff r c)))
      r c = .ok (a.coeff r c) := by
  simp [element, List.getElem?_map, List.getElem?_range, hr, hc]

/-- A loop each of whose passes succeeds is the loop of the results. -/
theorem foldlM_ok {A B : Type} (f : B → A → Except Fault B) (g : B → A → B) (l : List A)
    (h : ∀ b, ∀ x ∈ l, f b x = .ok (g b x)) (init : B) :
    l.foldlM f init = .ok (l.foldl g init) := by
  induction l generalizing init with
  | nil => rfl
  | cons x xs ih =>
    rw [List.foldlM_cons, h init x (List.mem_cons_self x xs)]
    exact ih (fun b y hy => h b y (List.mem_cons_of_mem x hy)) (g init x)

/-- The array after a loop of assignments over the columns of one row. -/
theorem foldl_assign_row (g : ℕ → T) (row : ℕ) (l : List ℕ) (a : EigenArray T) :
    (l.foldl (fun a col => a.assign row col (g col)) a).rows = a.rows ∧
    (l.foldl (fun a col => a.assign row col (g col)) a).cols = a.cols ∧
    ∀ r c, (l.foldl (fun a col => a.assign row col (g col)) a).coeff r c =
      if r = row ∧ c ∈ l then g c else a.coeff r c := by
  induction l generalizing a with
  | nil => simp
  | cons x xs ih =>
    obtain ⟨h1, h2, h3⟩ := ih (a.assign row x (g x))
    refine ⟨h1, h2, fun r c => ?_⟩
    rw [List.foldl_cons, h3 r c]
    simp only [EigenArray.assign, List.mem_cons]
    by_cases hr : r = row
    · by_cases hx : c = x
      · subst hx
        simp [hr]
      · simp [hr, hx]
    · simp [hr]

/-- The array after the two nested loops of assignments. -/
theorem foldl_assign_rows (G : ℕ → ℕ → T) (lr lc : List ℕ) (a : EigenArray T) :
    (lr.foldl (fun a row => lc.foldl (fun a col => a.assign row col (G row col)) a) a).rows =
      a.rows ∧
    (lr.foldl (fun a row => lc.foldl (fun a col => a.assign row col (G row col)) a) a).cols =
      a.cols ∧
    ∀ r c,
      (lr.foldl (fun a row => lc.foldl (fun a col => a.assign row col (G row col)) a) a).coeff
        r c = if r ∈ lr ∧ c ∈ lc then G r c else a.coeff r c := by
  induction lr generalizing a with
  | nil => simp
  | cons x xs ih =>
    obtain ⟨h1, h2, h3⟩ := ih (lc.foldl (fun a col => a.assign x col (G x col)) a)
    obtain ⟨k1, k2, k3⟩ := foldl_assign_row (G x) x lc a
    refine ⟨by rw [List.foldl_cons, h1, k1], by rw [List.foldl_cons, h2, k2], fun r c => ?_⟩
    rw [List.foldl_cons, h3 r c, k3 r c]
    simp only [List.mem_cons]
    by_cases hx : r = x
    · subst hx
      by_cases hc : c ∈ lc
      · simp [hc]
      · simp [hc]
    · simp [hx]

/-- The conversion back of the vector of vectors of an array with at least one row. -/
theorem vectors_to_array_of_array (zero : T) (a : EigenArray T) (h : 0 < a.rows) :
    vectors_to_array zero (-1) (-1)
        ((List.range a.rows).map (fun r => (List.range a.cols).map (fun c => a.coeff r c))) =
      .ok ((List.range a.rows).foldl
        (fun e row => (List.range a.cols).foldl (fun e col => e.assign row col (a.coeff row col)) e)
        (EigenArray.Zero zero a.rows a.cols)) := by
  have h0 : ((List.range a.rows).map
      (fun r => (List.range a.cols).map (fun c => a.coeff r c)))[0]? =
      some ((List.range a.cols).map (fun c => a.coeff 0 c)) := by
    simp [List.getElem?_map, List.getElem?_range, h]
  unfold vectors_to_array
  simp only [h0, List.length_map, List.length_range, Int.toNat_ofNat]
  rw [if_neg (by simp), if_neg (by simp)]
  apply foldlM_ok
  intro e row hrow
  apply foldlM_ok
  intro e2 col hcol
  rw [element_of_array a row col (List.mem_range.mp hrow) (List.mem_range.mp hcol)]

/-- C19, as the code has it: an array with zero rows (and three columns) is converted
to the empty vector of vectors, and the conversion back of that vector reads
`std_vector[0]` outside its bounds: it returns no array. -/
theorem Convert_zero_rows :
    array_to_vectors (-1) (-1) (⟨0, 3, fun _ _ => 0⟩ : EigenArray ℤ) [] = .ok [] ∧
    vectors_to_array (0 : ℤ) (-1) (-1) [] = .error .out_of_range :=
  ⟨rfl, rfl⟩

/-- C19, amended: for every array of dynamic dimensions, the conversion into an empty
vector of vectors produces `rows()` rows of `cols()` elements with the element
`[r][c]` equal to `array( r, c )`; when the array has at least one row, the conversion
back of that result returns an array with the same dimensions and the same
coefficients as the original. -/
theorem Convert_round_trip (zero : T) (a : EigenArray T) :
    ∃ vv, array_to_vectors (-1) (-1) a [] = .ok vv ∧
      vv.length = a.rows ∧ (∀ row ∈ vv, row.length = a.cols) ∧
      (∀ r c, r < a.rows → c < a.cols → element vv r c = .ok (a.coeff r c)) ∧
      (0 < a.rows → ∃ a', vectors_to_array zero (-1) (-1) vv = .ok a' ∧
        a'.rows = a.rows ∧ a'.cols = a.cols ∧
        ∀ r c, r < a.rows → c < a.cols → a'.coeff r c = a.coeff r c) := by
  refine ⟨_, array_to_vectors_dynamic a, by simp, ?_, ?_, ?_⟩
  · intro row hrow
    obtain ⟨r, -, rfl⟩ := List.mem_map.mp hrow
    simp
  · intro r c hr hc
    exact element_of_array a r c hr hc
  · intro h
    obtain ⟨k1, k2, k3⟩ := foldl_assign_rows (fun r c => a.coeff r c) (List.range a.rows)
      (List.range a.cols) (EigenArray.Zero zero a.rows a.cols)
    refine ⟨_, vectors_to_array_of_array zero a h, k1, k2, fun r c hr hc => ?_⟩
    rw [k3 r c, if_pos ⟨List.mem_range.mpr hr, List.mem_range.mpr hc⟩]

/-- The array with the rows 0, 1, 2 and 10, 11, 12: the conversion back returns an array
with two rows and three columns. -/
theorem Convert_round_trip_witness :
    ∃ vv, array_to_vectors (-1) (-1) (⟨2, 3, fun r c => 10 * (r : ℤ) + c⟩ : EigenArray ℤ) [] =
        .ok vv ∧
      ∃ a', vectors_to_array (0 : ℤ) (-1) (-1) vv = .ok a' ∧ a'.rows = 2 ∧ a'.cols = 3 ∧
        ∀ r c, r < 2 → c < 3 → a'.coeff r c = 10 * (r : ℤ) + c :=
  match Convert_round_trip (0 : ℤ) (⟨2, 3, fun r c => 10 * (r : ℤ) + c⟩ : EigenArray ℤ) with
  | ⟨vv, h1, _, _, _, h5⟩ => ⟨vv, h1, h5 (by decide)⟩

end Convert

end tcpp
